import Mathlib

/-!
Verification of the gimtex scanning pipeline (src/main.rs, src/scanner.rs).

The development shallowly embeds the core of the scanner:
* `SecretScanner` (src/scanner.rs lines 14-61): three regex detectors applied in
  order by `replace_all`, modelled as executable matchers over `List Char`.
  Terminal colorization (the `colored` crate) is presentation-only (the spec
  excludes it from the core), so redaction placeholders are modelled as the
  plain strings `[REDACTED_SECRET]`, `[REDACTED_OPENAI_KEY]`, `[REDACTED_AWS_KEY]`.
* `process_file` (lines 387-446): binary probe, decoding, redaction, optional
  line numbering, per-file token count.
* `scan` (lines 192-309): discovery, glob filtering, sorting, tree view,
  assembly, and final metrics, over an explicit filesystem/git environment.
* the `glob` crate's `Pattern::new`/`matches_path`, used by the filter stage.

External collaborators (the BPE tokenizer, the directory walker of the `ignore`
crate, manifest parsing) are modelled as parameters of the pipeline, mirroring
how the source only consumes their results.
-/

namespace Gimtex

/-- Text is modelled as a list of characters. -/
abbrev Str := List Char

/-- The regex class `[a-zA-Z0-9_\-]`: characters allowed in the generic
detector's captured `secret` value. -/
def isWordChar (c : Char) : Bool :=
  ('a' ≤ c && c ≤ 'z') || ('A' ≤ c && c ≤ 'Z') || ('0' ≤ c && c ≤ '9') || c == '_' || c == '-'

/-- The regex class `[\s]` (modelled at ASCII level). -/
def isWs (c : Char) : Bool :=
  c == ' ' || c == '\t' || c == '\n' || c == '\r' || c == '\x0b' || c == '\x0c'

/-- The regex class `['"]`. -/
def isQuote (c : Char) : Bool := c == '\'' || c == '"'

/-- The regex class `[:=]`. -/
def isSep (c : Char) : Bool := c == ':' || c == '='

/-- The regex class `[a-zA-Z0-9]` (OpenAI key body). -/
def isAlnum (c : Char) : Bool :=
  ('a' ≤ c && c ≤ 'z') || ('A' ≤ c && c ≤ 'Z') || ('0' ≤ c && c ≤ '9')

/-- The regex class `[0-9A-Z]` (AWS key body). -/
def isUpperDigit (c : Char) : Bool := ('A' ≤ c && c ≤ 'Z') || ('0' ≤ c && c ≤ '9')

/-- ASCII lower-casing, modelling the `(?i)` flag of the generic detector. -/
def asciiLower (c : Char) : Char :=
  if 'A' ≤ c && c ≤ 'Z' then Char.ofNat (c.toNat + 32) else c

/-- The alternatives of `(?i)(api_?key|auth_?token|access_?key|secret|password)`,
expanded (`_?` optional) and stored lower-case, in regex alternation order. -/
def kwAlts : List Str :=
  ["api_key".data, "apikey".data, "auth_token".data, "authtoken".data,
   "access_key".data, "accesskey".data, "secret".data, "password".data]

/-- Case-insensitive keyword match at the head of `s`: the length consumed. -/
def matchKeyword (s : Str) : Option Nat :=
  (kwAlts.find? (fun a => (s.take a.length).map asciiLower == a)).map List.length

/-- Length of the maximal prefix satisfying `p` (greedy character-class run). -/
def countWhile (p : Char → Bool) : Str → Nat
  | [] => 0
  | c :: cs => if p c then countWhile p cs + 1 else 0

/-- A successful match of the generic detector
`(?i)(api_?key|auth_?token|access_?key|secret|password)[\s]*[:=][\s]*['"](?P<secret>[a-zA-Z0-9_\-]{8,})['"]`
at the head of the text, recorded by component lengths. -/
structure GenMatch where
  kwLen : Nat
  ws1 : Nat
  ws2 : Nat
  secLen : Nat
deriving Repr, DecidableEq

/-- Offset of the captured `secret` group inside the whole match. -/
def GenMatch.secStart (m : GenMatch) : Nat := m.kwLen + m.ws1 + 1 + m.ws2 + 1

/-- Total length of the whole match. -/
def GenMatch.len (m : GenMatch) : Nat := m.secStart + m.secLen + 1

/-- The generic detector, matching at the head of `s`.  Greedy `[\s]*` and
`{8,}` runs are maximal munches: each run is followed by a character outside
its own class in the pattern, so regex backtracking can never shorten them. -/
def genericMatchAt (s : Str) : Option GenMatch :=
  match matchKeyword s with
  | none => none
  | some k =>
    match (s.drop k).drop (countWhile isWs (s.drop k)) with
    | [] => none
    | sp :: r3 =>
      if isSep sp then
        match r3.drop (countWhile isWs r3) with
        | [] => none
        | q :: r5 =>
          if isQuote q then
            if 8 ≤ countWhile isWordChar r5 then
              match r5.drop (countWhile isWordChar r5) with
              | q' :: _ =>
                if isQuote q' then
                  some ⟨k, countWhile isWs (s.drop k), countWhile isWs r3,
                        countWhile isWordChar r5⟩
                else none
              | [] => none
            else none
          else none
      else none

/-- The literal tail `T3BlbkFJ` of the OpenAI key pattern. -/
def t3lit : Str := "T3BlbkFJ".data

/-- Does `T3BlbkFJ` occur in `r` at offset `d`? -/
def sliceEqT3 (r : Str) (d : Nat) : Bool := (r.drop d).take t3lit.length == t3lit

/-- Search for the largest `d` with `20 ≤ d = 19 + i ≤ 19 + n`, `d + 8 ≤ run`
and `T3BlbkFJ` at offset `d` — the greedy (longest) choice of `{20,}`. -/
def oaFindBest (r : Str) (run : Nat) : Nat → Option Nat
  | 0 => none
  | n + 1 =>
    if 19 + (n + 1) + 8 ≤ run && sliceEqT3 r (19 + (n + 1)) then some (19 + (n + 1))
    else oaFindBest r run n

/-- The OpenAI detector `sk-[a-zA-Z0-9]{20,}T3BlbkFJ` at the head of `s`:
returns the length of the (greedy) match. -/
def oaMatchAt (s : Str) : Option Nat :=
  match s with
  | a :: b :: c :: r =>
    if a = 's' ∧ b = 'k' ∧ c = '-' then
      match oaFindBest r (countWhile isAlnum r) (countWhile isAlnum r - 27) with
      | some d => some (3 + d + 8)
      | none => none
    else none
  | _ => none

/-- The AWS detector `AKIA[0-9A-Z]{16}` at the head of `s` (fixed length 20). -/
def awsMatchAt (s : Str) : Option Nat :=
  if s.take 4 == "AKIA".data && ((s.drop 4).take 16).all isUpperDigit
      && 20 ≤ s.length then
    some 20
  else none

/-- Redaction placeholder of the generic detector (colorization stripped). -/
def redactedSecret : Str := "[REDACTED_SECRET]".data

/-- Redaction placeholder of the OpenAI detector. -/
def redactedOpenai : Str := "[REDACTED_OPENAI_KEY]".data

/-- Redaction placeholder of the AWS detector. -/
def redactedAws : Str := "[REDACTED_AWS_KEY]".data

/-- Index of the leftmost occurrence of `pat` in `x` (Rust `str::find`). -/
def firstOccIdx (pat : Str) : Str → Option Nat
  | [] => if pat.isEmpty then some 0 else none
  | c :: cs => if pat.isPrefixOf (c :: cs) then some 0 else (firstOccIdx pat cs).map (· + 1)

/-- Rust `str::replace`: replace all non-overlapping occurrences of `pat`,
left to right.  Fuelled; `x.length + 1` fuel always suffices since our callers
pass a non-empty `pat` (the captured secret has at least 8 characters).
A (never exercised) empty pattern leaves the text unchanged. -/
def strReplaceFuel (pat rep : Str) : Nat → Str → Str
  | 0, x => x
  | fuel + 1, x =>
    if pat.isEmpty then x
    else
      match firstOccIdx pat x with
      | none => x
      | some j => x.take j ++ rep ++ strReplaceFuel pat rep fuel (x.drop (j + pat.length))

/-- Rust `str::replace` entry point. -/
def strReplace (x pat rep : Str) : Str := strReplaceFuel pat rep (x.length + 1) x

/-- A detector for the `replace_all` engine: at the head of a suffix, either no
match, or a match length together with the text to substitute for the match. -/
abbrev Detector := Str → Option (Nat × Str)

/-- The generic detector with its replacement: the closure at scanner.rs:35-40
computes `whole.replace(secret, "[REDACTED_SECRET]")`. -/
def genFind : Detector := fun s =>
  (genericMatchAt s).map fun m =>
    (m.len, strReplace (s.take m.len) ((s.drop m.secStart).take m.secLen) redactedSecret)

/-- The OpenAI detector with its constant replacement. -/
def oaFind : Detector := fun s => (oaMatchAt s).map fun l => (l, redactedOpenai)

/-- The AWS detector with its constant replacement. -/
def awsFind : Detector := fun s => (awsMatchAt s).map fun l => (l, redactedAws)

/-- Position of the leftmost match of `f` in `s` (regex leftmost semantics):
the match position, length and replacement text. -/
def findLeftmost (f : Detector) : Str → Option (Nat × Nat × Str)
  | [] => (f []).map fun lr => (0, lr.1, lr.2)
  | c :: cs =>
    match f (c :: cs) with
    | some (l, r) => some (0, l, r)
    | none => (findLeftmost f cs).map fun plr => (plr.1 + 1, plr.2.1, plr.2.2)

/-- `Regex::is_match`. -/
def isMatch (f : Detector) (s : Str) : Bool := (findLeftmost f s).isSome

/-- `Regex::replace_all`: repeatedly take the leftmost match, emit the prefix
and the replacement, continue after the match.  Fuelled; all our detectors
consume at least one character per match, so `s.length + 1` fuel suffices. -/
def replaceAllFuel (f : Detector) : Nat → Str → Str
  | 0, s => s
  | fuel + 1, s =>
    match findLeftmost f s with
    | none => s
    | some (p, l, r) => s.take p ++ r ++ replaceAllFuel f fuel (s.drop (p + l))

/-- `Regex::replace_all` entry point. -/
def replaceAll (f : Detector) (s : Str) : Str := replaceAllFuel f (s.length + 1) s

/-- `SecretScanner::scan` (scanner.rs lines 29-60) on character lists: the three
detectors applied in order, each guarded by `is_match` exactly as in the source
(the `found_secret` flag only drives the diagnostic warning and is omitted). -/
def scanChars (s : Str) : Str :=
  let s1 := if isMatch genFind s then replaceAll genFind s else s
  let s2 := if isMatch oaFind s1 then replaceAll oaFind s1 else s1
  if isMatch awsFind s2 then replaceAll awsFind s2 else s2

/-- `SecretScanner::scan` on `String`s.  The `file_path` argument of the source
only feeds the diagnostic warning and does not influence the returned text. -/
def SecretScanner.scan (content : String) : String := ⟨scanChars content.data⟩

/-! ### Greedy runs -/

theorem countWhile_le (p : Char → Bool) : ∀ l : Str, countWhile p l ≤ l.length
  | [] => Nat.le_refl 0
  | c :: cs => by
    simp only [countWhile]
    split
    · exact Nat.succ_le_succ (countWhile_le p cs)
    · exact Nat.zero_le _

theorem countWhile_all (p : Char → Bool) :
    ∀ l : Str, ∀ c ∈ l.take (countWhile p l), p c = true
  | [], c, h => by simp at h
  | b :: cs, c, h => by
    simp only [countWhile] at h
    by_cases hb : p b = true
    · simp only [hb, if_pos] at h
      rcases List.mem_cons.mp (by simpa using h) with rfl | h'
      · exact hb
      · exact countWhile_all p cs c h'
    · simp [hb] at h

theorem countWhile_append_all (p : Char → Bool) :
    ∀ {x : Str} (y : Str), (∀ c ∈ x, p c = true) →
      countWhile p (x ++ y) = x.length + countWhile p y
  | [], y, _ => by simp
  | b :: x, y, h => by
    have hb : p b = true := h b (List.mem_cons_self b x)
    have ih := countWhile_append_all p (x := x) y
      (fun c hc => h c (List.mem_cons_of_mem b hc))
    show countWhile p (b :: (x ++ y)) = (b :: x).length + countWhile p y
    rw [countWhile, if_pos hb, ih, List.length_cons]
    omega

theorem countWhile_stop (p : Char → Bool) :
    ∀ {x : Str} {c : Char} (r : Str), (∀ b ∈ x, p b = true) → p c = false →
      countWhile p (x ++ c :: r) = x.length
  | [], c, r, _, hc => by
    show countWhile p (c :: r) = 0
    rw [countWhile, if_neg (by simp [hc])]
  | b :: x, c, r, h, hc => by
    have hb : p b = true := h b (List.mem_cons_self b x)
    have ih := countWhile_stop p (x := x) (c := c) r
      (fun d hd => h d (List.mem_cons_of_mem b hd)) hc
    show countWhile p (b :: (x ++ c :: r)) = (b :: x).length
    rw [countWhile, if_pos hb, ih, List.length_cons]

theorem countWhile_drop (p : Char → Bool) :
    ∀ l : Str, l.drop (countWhile p l) = [] ∨
      ∃ c r, l.drop (countWhile p l) = c :: r ∧ p c = false
  | [] => Or.inl rfl
  | b :: cs => by
    simp only [countWhile]
    by_cases hb : p b = true
    · simpa [hb] using countWhile_drop p cs
    · refine Or.inr ⟨b, cs, ?_, by simpa using hb⟩
      simp [hb]

/-! ### Occurrences (`str::find`) -/

/-- Helper: a prefix of an append that fits in the first part. -/
theorem prefix_append_of_length_le {w a b : Str} (h : w <+: a ++ b)
    (hl : w.length ≤ a.length) : w <+: a := by
  have hw := List.prefix_iff_eq_take.mp h
  rw [List.take_append_of_le_length hl] at hw
  rw [hw]
  exact List.take_prefix _ _

theorem length_pos_of_ne_nil {l : Str} (h : l ≠ []) : 1 ≤ l.length := by
  cases l with
  | nil => exact absurd rfl h
  | cons a t => simp

theorem isEmpty_eq_false_of_ne_nil {l : Str} (h : l ≠ []) : l.isEmpty = false := by
  cases l with
  | nil => exact absurd rfl h
  | cons a t => rfl

theorem firstOccIdx_some {pat : Str} (hne : pat ≠ []) :
    ∀ {z : Str} {j : Nat}, firstOccIdx pat z = some j →
      pat <+: z.drop j ∧ j + pat.length ≤ z.length ∧ ∀ i < j, ¬ pat <+: z.drop i := by
  intro z
  induction z with
  | nil =>
    intro j h
    rw [firstOccIdx, if_neg (by simp [isEmpty_eq_false_of_ne_nil hne])] at h
    exact absurd h (by simp)
  | cons c cs ih =>
    intro j h
    rw [firstOccIdx] at h
    by_cases hp : pat.isPrefixOf (c :: cs) = true
    · rw [if_pos hp] at h
      cases h
      refine ⟨List.isPrefixOf_iff_prefix.mp hp, ?_, by omega⟩
      have := (List.isPrefixOf_iff_prefix.mp hp).length_le
      simpa using this
    · rw [if_neg hp, Option.map_eq_some'] at h
      rcases h with ⟨j', hj', rfl⟩
      rcases ih hj' with ⟨h1, h2, h3⟩
      refine ⟨by simpa using h1, by simp only [List.length_cons]; omega, ?_⟩
      intro i hi
      cases i with
      | zero =>
        simpa using fun hx => hp (List.isPrefixOf_iff_prefix.mpr hx)
      | succ i' =>
        simpa using h3 i' (by omega)

theorem firstOccIdx_none {pat : Str} (hne : pat ≠ []) :
    ∀ {z : Str}, firstOccIdx pat z = none → ∀ i, ¬ pat <+: z.drop i := by
  intro z
  induction z with
  | nil =>
    intro _ i hp
    rw [List.drop_nil] at hp
    exact hne (List.prefix_nil.mp hp)
  | cons c cs ih =>
    intro h i hp
    rw [firstOccIdx] at h
    by_cases hpre : pat.isPrefixOf (c :: cs) = true
    · rw [if_pos hpre] at h; exact absurd h (by simp)
    · rw [if_neg hpre, Option.map_eq_none'] at h
      cases i with
      | zero => exact hpre (List.isPrefixOf_iff_prefix.mpr (by simpa using hp))
      | succ i' => exact ih h i' (by simpa using hp)

theorem firstOccIdx_isSome_of {pat : Str} (hne : pat ≠ []) {z : Str} {i : Nat}
    (h : pat <+: z.drop i) : (firstOccIdx pat z).isSome := by
  cases hf : firstOccIdx pat z with
  | none => exact absurd h (firstOccIdx_none hne hf i)
  | some j => rfl

theorem firstOccIdx_eq_none_of_short {pat z : Str} (hne : pat ≠ [])
    (h : z.length < pat.length) : firstOccIdx pat z = none := by
  cases hf : firstOccIdx pat z with
  | none => rfl
  | some j =>
    rcases firstOccIdx_some hne hf with ⟨_, h2, _⟩
    omega

/-! ### `str::replace` -/

theorem strReplaceFuel_succ {pat rep : Str} (hemp : pat.isEmpty = false)
    (fuel : Nat) (x : Str) :
    strReplaceFuel pat rep (fuel + 1) x =
      match firstOccIdx pat x with
      | none => x
      | some j => x.take j ++ rep ++ strReplaceFuel pat rep fuel (x.drop (j + pat.length)) := by
  rw [strReplaceFuel, if_neg (by simp [hemp])]

theorem strReplaceFuel_congr {pat rep : Str} (hne : pat ≠ []) :
    ∀ (f₁ f₂ : Nat) (x : Str), x.length < f₁ → x.length < f₂ →
      strReplaceFuel pat rep f₁ x = strReplaceFuel pat rep f₂ x := by
  have hemp := isEmpty_eq_false_of_ne_nil hne
  intro f₁
  induction f₁ with
  | zero => intro f₂ x h1; omega
  | succ f₁ ih =>
    intro f₂ x h1 h2
    cases f₂ with
    | zero => omega
    | succ f₂ =>
      rw [strReplaceFuel_succ hemp, strReplaceFuel_succ hemp]
      cases hf : firstOccIdx pat x with
      | none => rfl
      | some j =>
        simp only
        rcases firstOccIdx_some hne hf with ⟨_, hlen, _⟩
        have hp : 1 ≤ pat.length := length_pos_of_ne_nil hne
        have hlt : (x.drop (j + pat.length)).length < x.length := by
          simp only [List.length_drop]
          omega
        congr 1
        exact ih f₂ _ (by omega) (by omega)

theorem strReplace_of_none {pat rep x : Str} (h : firstOccIdx pat x = none) :
    strReplace x pat rep = x := by
  rw [strReplace, strReplaceFuel]
  by_cases hemp : pat.isEmpty
  · rw [if_pos (by simp [hemp])]
  · rw [if_neg (by simpa using hemp), h]

theorem strReplace_unfold {pat rep x : Str} (hne : pat ≠ []) {j : Nat}
    (h : firstOccIdx pat x = some j) :
    strReplace x pat rep =
      x.take j ++ rep ++ strReplace (x.drop (j + pat.length)) pat rep := by
  have hemp := isEmpty_eq_false_of_ne_nil hne
  rcases firstOccIdx_some hne h with ⟨_, hlen, _⟩
  have hp : 1 ≤ pat.length := length_pos_of_ne_nil hne
  have heq : strReplaceFuel pat rep x.length (x.drop (j + pat.length))
      = strReplaceFuel pat rep ((x.drop (j + pat.length)).length + 1)
          (x.drop (j + pat.length)) :=
    strReplaceFuel_congr hne _ _ _ (by simp only [List.length_drop]; omega)
      (by simp only [List.length_drop]; omega)
  show strReplaceFuel pat rep (x.length + 1) x = _
  rw [strReplaceFuel_succ hemp, h]
  show x.take j ++ rep ++ strReplaceFuel pat rep x.length (x.drop (j + pat.length)) = _
  rw [heq]
  rfl

theorem strReplace_of_short {pat rep x : Str} (hne : pat ≠ [])
    (h : x.length < pat.length) : strReplace x pat rep = x :=
  strReplace_of_none (firstOccIdx_eq_none_of_short hne h)

/-! ### Leftmost matches and `replace_all` -/

theorem findLeftmost_eq_none_iff (f : Detector) :
    ∀ s : Str, findLeftmost f s = none ↔ ∀ i, f (s.drop i) = none := by
  intro s
  induction s with
  | nil =>
    simp only [findLeftmost, Option.map_eq_none', List.drop_nil]
    exact ⟨fun h i => h, fun h => h 0⟩
  | cons c cs ih =>
    simp only [findLeftmost]
    cases hf : f (c :: cs) with
    | some lr =>
      constructor
      · intro h; exact absurd h (by simp)
      · intro h
        have := h 0
        simp [hf] at this
    | none =>
      simp only [Option.map_eq_none']
      rw [ih]
      constructor
      · intro h i
        cases i with
        | zero => simpa using hf
        | succ i' => simpa using h i'
      · intro h i
        simpa using h (i + 1)

theorem findLeftmost_some (f : Detector) :
    ∀ {s : Str} {p l : Nat} {r : Str}, findLeftmost f s = some (p, l, r) →
      f (s.drop p) = some (l, r) ∧ p ≤ s.length ∧ ∀ i < p, f (s.drop i) = none := by
  intro s
  induction s with
  | nil =>
    intro p l r h
    simp only [findLeftmost, Option.map_eq_some'] at h
    rcases h with ⟨lr, hlr, heq⟩
    cases heq
    exact ⟨by simpa using hlr, Nat.le_refl 0, by omega⟩
  | cons c cs ih =>
    intro p l r h
    simp only [findLeftmost] at h
    cases hf : f (c :: cs) with
    | some lr =>
      rw [hf] at h
      cases h
      exact ⟨by simpa using hf, Nat.zero_le _, by omega⟩
    | none =>
      rw [hf] at h
      simp only [Option.map_eq_some'] at h
      rcases h with ⟨⟨p', l', r'⟩, hp', heq⟩
      cases heq
      rcases ih hp' with ⟨h1, h2, h3⟩
      refine ⟨by simpa using h1, by simpa using Nat.add_le_add_right h2 1, ?_⟩
      intro i hi
      cases i with
      | zero => simpa using hf
      | succ i' => simpa using h3 i' (by omega)

/-- A detector whose matches consume at least one character and fit in the
text; all three scanner detectors qualify, which makes the default fuel of
`replaceAll` sufficient. -/
def GoodDetector (f : Detector) : Prop :=
  ∀ s l r, f s = some (l, r) → 1 ≤ l ∧ l ≤ s.length

theorem replaceAllFuel_congr {f : Detector} (hf : GoodDetector f) :
    ∀ (f₁ f₂ : Nat) (s : Str), s.length < f₁ → s.length < f₂ →
      replaceAllFuel f f₁ s = replaceAllFuel f f₂ s := by
  intro f₁
  induction f₁ with
  | zero => intro f₂ s h1; omega
  | succ f₁ ih =>
    intro f₂ s h1 h2
    cases f₂ with
    | zero => omega
    | succ f₂ =>
      simp only [replaceAllFuel]
      cases hfl : findLeftmost f s with
      | none => rfl
      | some plr =>
        rcases plr with ⟨p, l, r⟩
        rcases findLeftmost_some f hfl with ⟨h1', h2', _⟩
        rcases hf _ _ _ h1' with ⟨hl1, hl2⟩
        have hlt : (s.drop (p + l)).length < s.length := by
          simp only [List.length_drop, List.length_drop] at hl2 ⊢
          omega
        simp only
        congr 1
        exact ih f₂ _ (by omega) (by omega)

theorem replaceAllFuel_succ (f : Detector) (fuel : Nat) (s : Str) :
    replaceAllFuel f (fuel + 1) s =
      match findLeftmost f s with
      | none => s
      | some (p, l, r) => s.take p ++ r ++ replaceAllFuel f fuel (s.drop (p + l)) := rfl

theorem replaceAll_of_none {f : Detector} {s : Str} (h : findLeftmost f s = none) :
    replaceAll f s = s := by
  show replaceAllFuel f (s.length + 1) s = s
  rw [replaceAllFuel_succ, h]

theorem replaceAll_unfold {f : Detector} (hf : GoodDetector f) {s : Str}
    {p l : Nat} {r : Str} (h : findLeftmost f s = some (p, l, r)) :
    replaceAll f s = s.take p ++ r ++ replaceAll f (s.drop (p + l)) := by
  rcases findLeftmost_some f h with ⟨h1, h2, _⟩
  rcases hf _ _ _ h1 with ⟨hl1, hl2⟩
  simp only [List.length_drop] at hl2
  have heq : replaceAllFuel f s.length (s.drop (p + l))
      = replaceAllFuel f ((s.drop (p + l)).length + 1) (s.drop (p + l)) :=
    replaceAllFuel_congr hf _ _ _ (by simp only [List.length_drop]; omega)
      (by simp only [List.length_drop]; omega)
  show replaceAllFuel f (s.length + 1) s = _
  rw [replaceAllFuel_succ, h]
  show s.take p ++ r ++ replaceAllFuel f s.length (s.drop (p + l)) = _
  rw [heq]
  rfl

/-- No match of `f` anywhere in `s`. -/
def NoMatch (f : Detector) (s : Str) : Prop := ∀ i, f (s.drop i) = none

theorem noMatch_iff_findLeftmost {f : Detector} {s : Str} :
    NoMatch f s ↔ findLeftmost f s = none :=
  ⟨fun h => (findLeftmost_eq_none_iff f s).mpr h,
   fun h => (findLeftmost_eq_none_iff f s).mp h⟩

theorem NoMatch.drop {f : Detector} {s : Str} (h : NoMatch f s) (k : Nat) :
    NoMatch f (s.drop k) := by
  intro i
  rw [List.drop_drop]
  exact h (k + i)

theorem replaceAll_of_noMatch {f : Detector} {s : Str} (h : NoMatch f s) :
    replaceAll f s = s :=
  replaceAll_of_none (noMatch_iff_findLeftmost.mp h)

theorem isMatch_eq_false {f : Detector} {s : Str} (h : NoMatch f s) :
    isMatch f s = false := by
  unfold isMatch
  rw [noMatch_iff_findLeftmost.mp h]
  rfl

/-! ### Character classes: exhaustion and disjointness -/

/-- ASCII letters. -/
def isAsciiAlpha (c : Char) : Bool := ('a' ≤ c && c ≤ 'z') || ('A' ≤ c && c ≤ 'Z')

/-- Characters that can appear in a matched keyword: ASCII letters and `_`. -/
def isKwChar (c : Char) : Bool := isAsciiAlpha c || c == '_'

theorem ws_cases {c : Char} (h : isWs c = true) :
    c = ' ' ∨ c = '\t' ∨ c = '\n' ∨ c = '\r' ∨ c = '\x0b' ∨ c = '\x0c' := by
  simpa [isWs, or_assoc] using h

theorem quote_cases {c : Char} (h : isQuote c = true) : c = '\'' ∨ c = '"' := by
  simpa [isQuote] using h

theorem sep_cases {c : Char} (h : isSep c = true) : c = ':' ∨ c = '=' := by
  simpa [isSep] using h

theorem ws_not_word {c : Char} (h : isWs c = true) : isWordChar c = false := by
  rcases ws_cases h with rfl | rfl | rfl | rfl | rfl | rfl <;> decide

theorem ws_not_quote {c : Char} (h : isWs c = true) : isQuote c = false := by
  rcases ws_cases h with rfl | rfl | rfl | rfl | rfl | rfl <;> decide

theorem ws_ne_lbracket {c : Char} (h : isWs c = true) : c ≠ '[' := by
  rcases ws_cases h with rfl | rfl | rfl | rfl | rfl | rfl <;> decide

theorem ws_ne_rbracket {c : Char} (h : isWs c = true) : c ≠ ']' := by
  rcases ws_cases h with rfl | rfl | rfl | rfl | rfl | rfl <;> decide

theorem sep_not_ws {c : Char} (h : isSep c = true) : isWs c = false := by
  rcases sep_cases h with rfl | rfl <;> decide

theorem sep_not_word {c : Char} (h : isSep c = true) : isWordChar c = false := by
  rcases sep_cases h with rfl | rfl <;> decide

theorem sep_not_quote {c : Char} (h : isSep c = true) : isQuote c = false := by
  rcases sep_cases h with rfl | rfl <;> decide

theorem sep_ne_lbracket {c : Char} (h : isSep c = true) : c ≠ '[' := by
  rcases sep_cases h with rfl | rfl <;> decide

theorem sep_ne_rbracket {c : Char} (h : isSep c = true) : c ≠ ']' := by
  rcases sep_cases h with rfl | rfl <;> decide

theorem quote_not_ws {c : Char} (h : isQuote c = true) : isWs c = false := by
  rcases quote_cases h with rfl | rfl <;> decide

theorem quote_not_word {c : Char} (h : isQuote c = true) : isWordChar c = false := by
  rcases quote_cases h with rfl | rfl <;> decide

theorem quote_ne_lbracket {c : Char} (h : isQuote c = true) : c ≠ '[' := by
  rcases quote_cases h with rfl | rfl <;> decide

theorem quote_ne_rbracket {c : Char} (h : isQuote c = true) : c ≠ ']' := by
  rcases quote_cases h with rfl | rfl <;> decide

theorem wordChar_not_quote {c : Char} (h : isWordChar c = true) : isQuote c = false := by
  by_contra hq
  rw [Bool.not_eq_false] at hq
  rcases quote_cases hq with rfl | rfl <;> exact absurd h (by decide)

theorem wordChar_ne_lbracket {c : Char} (h : isWordChar c = true) : c ≠ '[' := by
  intro e; rw [e] at h; exact absurd h (by decide)

theorem wordChar_ne_rbracket {c : Char} (h : isWordChar c = true) : c ≠ ']' := by
  intro e; rw [e] at h; exact absurd h (by decide)

theorem kwChar_not_quote {c : Char} (h : isKwChar c = true) : isQuote c = false := by
  by_contra hq
  rw [Bool.not_eq_false] at hq
  rcases quote_cases hq with rfl | rfl <;> exact absurd h (by decide)

theorem kwChar_not_sep {c : Char} (h : isKwChar c = true) : isSep c = false := by
  by_contra hq
  rw [Bool.not_eq_false] at hq
  rcases sep_cases hq with rfl | rfl <;> exact absurd h (by decide)

theorem kwChar_ne_lbracket {c : Char} (h : isKwChar c = true) : c ≠ '[' := by
  intro e; rw [e] at h; exact absurd h (by decide)

theorem kwChar_ne_rbracket {c : Char} (h : isKwChar c = true) : c ≠ ']' := by
  intro e; rw [e] at h; exact absurd h (by decide)

theorem alnum_ne_lbracket {c : Char} (h : isAlnum c = true) : c ≠ '[' := by
  intro e; rw [e] at h; exact absurd h (by decide)

theorem alnum_ne_rbracket {c : Char} (h : isAlnum c = true) : c ≠ ']' := by
  intro e; rw [e] at h; exact absurd h (by decide)

theorem upperDigit_ne_lbracket {c : Char} (h : isUpperDigit c = true) : c ≠ '[' := by
  intro e; rw [e] at h; exact absurd h (by decide)

theorem upperDigit_ne_rbracket {c : Char} (h : isUpperDigit c = true) : c ≠ ']' := by
  intro e; rw [e] at h; exact absurd h (by decide)

/-! ### Keyword matching -/

theorem kwAlts_chars : ∀ a ∈ kwAlts, ∀ x ∈ a, (('a' ≤ x && x ≤ 'z') || x == '_') = true := by
  decide

theorem kwAlts_len : ∀ a ∈ kwAlts, 6 ≤ a.length ∧ a.length ≤ 10 := by decide

theorem kwAlts_prefix_eq_aux : ∀ x ∈ kwAlts, ∀ y ∈ kwAlts, x.isPrefixOf y → x = y := by
  decide

theorem kwAlts_prefix_eq {x y : Str} (hx : x ∈ kwAlts) (hy : y ∈ kwAlts)
    (h : x <+: y) : x = y :=
  kwAlts_prefix_eq_aux x hx y hy (List.isPrefixOf_iff_prefix.mpr h)

theorem kwChar_of_lower {c x : Char} (h : asciiLower c = x)
    (hx : (('a' ≤ x && x ≤ 'z') || x == '_') = true) : isKwChar c = true := by
  rw [asciiLower] at h
  by_cases hc : ('A' ≤ c && c ≤ 'Z') = true
  · simp [isKwChar, isAsciiAlpha, hc]
  · rw [if_neg (by simpa using hc)] at h
    subst h
    simp only [isKwChar, isAsciiAlpha]
    rcases Bool.or_eq_true_iff.mp hx with h' | h'
    · simp [h']
    · simp [h']

theorem kw_chars {kw : Str} (h : kw.map asciiLower ∈ kwAlts) :
    ∀ c ∈ kw, isKwChar c = true := by
  intro c hc
  exact kwChar_of_lower rfl
    (kwAlts_chars _ h (asciiLower c) (List.mem_map_of_mem asciiLower hc))

theorem kw_len {kw : Str} (h : kw.map asciiLower ∈ kwAlts) :
    6 ≤ kw.length ∧ kw.length ≤ 10 := by
  have := kwAlts_len _ h
  simpa using this

theorem find?_eq_of_unique {α : Type} {p : α → Bool} {a : α} :
    ∀ {l : List α}, a ∈ l → p a = true → (∀ b ∈ l, p b = true → b = a) →
      l.find? p = some a := by
  intro l
  induction l with
  | nil => intro h; simp at h
  | cons x xs ih =>
    intro hmem hp huniq
    by_cases hx : p x = true
    · rw [List.find?_cons_of_pos _ hx]
      exact congrArg some (huniq x (List.mem_cons_self x xs) hx)
    · rw [List.find?_cons_of_neg _ (by simpa using hx)]
      have hmem' : a ∈ xs := by
        rcases List.mem_cons.mp hmem with rfl | h'
        · exact absurd hp hx
        · exact h'
      exact ih hmem' hp (fun b hb => huniq b (List.mem_cons_of_mem x hb))

theorem matchKeyword_append {kw : Str} (t : Str) (h : kw.map asciiLower ∈ kwAlts) :
    matchKeyword (kw ++ t) = some kw.length := by
  have hlen : (kw.map asciiLower).length = kw.length := by simp
  have hpred : (((kw ++ t).take (kw.map asciiLower).length).map asciiLower
      == kw.map asciiLower) = true := by
    rw [hlen, List.take_left]
    simp
  have huniq : ∀ b ∈ kwAlts,
      (((kw ++ t).take b.length).map asciiLower == b) = true → b = kw.map asciiLower := by
    intro b hb hpb
    rw [beq_iff_eq] at hpb
    by_cases hle : b.length ≤ kw.length
    · rw [List.take_append_of_le_length hle] at hpb
      have hbpre : b <+: kw.map asciiLower := by
        rw [← hpb]
        exact List.IsPrefix.map asciiLower (List.take_prefix _ _)
      exact kwAlts_prefix_eq hb h hbpre
    · rw [List.take_append_eq_append_take,
        List.take_of_length_le (by omega), List.map_append] at hpb
      have hapre : kw.map asciiLower <+: b := ⟨_, hpb⟩
      have heq := kwAlts_prefix_eq h hb hapre
      have : b.length = kw.length := by rw [← heq]; simp
      omega
  have hfind : kwAlts.find? (fun a => ((kw ++ t).take a.length).map asciiLower == a)
      = some (kw.map asciiLower) := find?_eq_of_unique h hpred huniq
  rw [matchKeyword, hfind]
  simp

theorem matchKeyword_some {s : Str} {k : Nat} (h : matchKeyword s = some k) :
    ∃ kw t, s = kw ++ t ∧ kw.length = k ∧ kw.map asciiLower ∈ kwAlts := by
  rw [matchKeyword, Option.map_eq_some'] at h
  rcases h with ⟨a, ha, rfl⟩
  have hmem := List.mem_of_find?_eq_some ha
  have hpred := List.find?_some ha
  rw [beq_iff_eq] at hpred
  refine ⟨s.take a.length, s.drop a.length, (List.take_append_drop _ _).symm, ?_, ?_⟩
  · have : ((s.take a.length).map asciiLower).length = a.length := by rw [hpred]
    simpa using this
  · rw [hpred]; exact hmem

/-! ### Decomposition and reconstruction of generic-detector matches -/

/-- The pieces of a whole generic-detector match. -/
def GenPieces (kw ws1 ws2 sec : Str) (sp q q' : Char) : Prop :=
  kw.map asciiLower ∈ kwAlts ∧ (∀ c ∈ ws1, isWs c = true) ∧ isSep sp = true ∧
  (∀ c ∈ ws2, isWs c = true) ∧ isQuote q = true ∧
  (∀ c ∈ sec, isWordChar c = true) ∧ 8 ≤ sec.length ∧ isQuote q' = true

/-- The text of a whole generic-detector match. -/
def genWhole (kw ws1 ws2 sec : Str) (sp q q' : Char) : Str :=
  kw ++ ws1 ++ [sp] ++ ws2 ++ [q] ++ sec ++ [q']

theorem genericMatchAt_decomp {s : Str} {m : GenMatch} (h : genericMatchAt s = some m) :
    ∃ kw ws1 ws2 sec : Str, ∃ sp q q' : Char, ∃ rest : Str,
      s = genWhole kw ws1 ws2 sec sp q q' ++ rest ∧
      kw.length = m.kwLen ∧ ws1.length = m.ws1 ∧ ws2.length = m.ws2 ∧
      sec.length = m.secLen ∧ GenPieces kw ws1 ws2 sec sp q q' := by
  rw [genericMatchAt] at h
  split at h
  · exact absurd h (by simp)
  next k hk =>
    rcases matchKeyword_some hk with ⟨kw, t, hst, hkl, hmem⟩
    have hdrop : s.drop k = t := by rw [hst, ← hkl, List.drop_left]
    rw [hdrop] at h
    split at h
    · exact absurd h (by simp)
    next sp r3 hr3 =>
      split at h
      case isFalse => exact absurd h (by simp)
      case isTrue hsep =>
        split at h
        · exact absurd h (by simp)
        next q r5 hr5 =>
          split at h
          case isFalse => exact absurd h (by simp)
          case isTrue hq =>
            split at h
            case isFalse => exact absurd h (by simp)
            case isTrue hrun =>
              split at h
              case h_2 => exact absurd h (by simp)
              case h_1 q' tail hq'r =>
                split at h
                case isFalse => exact absurd h (by simp)
                case isTrue hq' =>
                  have hm : m = ⟨k, countWhile isWs t, countWhile isWs r3,
                      countWhile isWordChar r5⟩ := by
                    cases h; rfl
                  have hw1 : t = t.take (countWhile isWs t) ++ (sp :: r3) := by
                    rw [← hr3, List.take_append_drop]
                  have hw2 : r3 = r3.take (countWhile isWs r3) ++ (q :: r5) := by
                    rw [← hr5, List.take_append_drop]
                  have hw3 : r5 = r5.take (countWhile isWordChar r5) ++ (q' :: tail) := by
                    rw [← hq'r, List.take_append_drop]
                  refine ⟨kw, t.take (countWhile isWs t), r3.take (countWhile isWs r3),
                    r5.take (countWhile isWordChar r5), sp, q, q', tail, ?_, ?_, ?_, ?_, ?_,
                    hmem, countWhile_all isWs t, hsep, countWhile_all isWs r3, hq,
                    countWhile_all isWordChar r5, ?_, hq'⟩
                  · rw [hst]
                    conv_lhs => rw [hw1]
                    conv_lhs => rw [hw2]
                    conv_lhs => rw [hw3]
                    simp [genWhole, List.append_assoc]
                  · rw [hm]; exact hkl
                  · rw [hm]
                    simp only [List.length_take]
                    exact Nat.min_eq_left (countWhile_le isWs t)
                  · rw [hm]
                    simp only [List.length_take]
                    exact Nat.min_eq_left (countWhile_le isWs r3)
                  · rw [hm]
                    simp only [List.length_take]
                    exact Nat.min_eq_left (countWhile_le isWordChar r5)
                  · simp only [List.length_take]
                    rw [Nat.min_eq_left (countWhile_le isWordChar r5)]
                    exact hrun

theorem genericMatchAt_recon {kw ws1 ws2 sec : Str} {sp q q' : Char} (rest : Str)
    (hp : GenPieces kw ws1 ws2 sec sp q q') :
    genericMatchAt (genWhole kw ws1 ws2 sec sp q q' ++ rest)
      = some ⟨kw.length, ws1.length, ws2.length, sec.length⟩ := by
  rcases hp with ⟨hmem, hws1, hsep, hws2, hq, hsec, hlen, hq'⟩
  have hshape : genWhole kw ws1 ws2 sec sp q q' ++ rest
      = kw ++ (ws1 ++ sp :: (ws2 ++ q :: (sec ++ q' :: rest))) := by
    simp [genWhole, List.append_assoc]
  have hmk := matchKeyword_append (ws1 ++ sp :: (ws2 ++ q :: (sec ++ q' :: rest))) hmem
  have hcw1 : countWhile isWs (ws1 ++ sp :: (ws2 ++ q :: (sec ++ q' :: rest))) = ws1.length :=
    countWhile_stop isWs _ hws1 (sep_not_ws hsep)
  have hcw2 : countWhile isWs (ws2 ++ q :: (sec ++ q' :: rest)) = ws2.length :=
    countWhile_stop isWs _ hws2 (quote_not_ws hq)
  have hcw3 : countWhile isWordChar (sec ++ q' :: rest) = sec.length :=
    countWhile_stop isWordChar _ hsec (quote_not_word hq')
  rw [hshape, genericMatchAt, hmk]
  simp [hcw1, hcw2, hcw3, List.drop_left, hsep, hq, hq', hlen]

/-! ### Decomposition and reconstruction of OpenAI and AWS matches -/

theorem t3lit_alnum : ∀ c ∈ t3lit, isAlnum c = true := by decide

theorem t3lit_length : t3lit.length = 8 := by decide

theorem oaFindBest_some {r : Str} {run : Nat} :
    ∀ {n d : Nat}, oaFindBest r run n = some d →
      20 ≤ d ∧ d + 8 ≤ run ∧ sliceEqT3 r d = true := by
  intro n
  induction n with
  | zero => intro d h; exact absurd h (by simp [oaFindBest])
  | succ n ih =>
    intro d h
    rw [oaFindBest] at h
    by_cases hc : (19 + (n + 1) + 8 ≤ run && sliceEqT3 r (19 + (n + 1))) = true
    · rw [if_pos hc] at h
      cases h
      rcases Bool.and_eq_true_iff.mp hc with ⟨h1, h2⟩
      exact ⟨by omega, by exact_mod_cast of_decide_eq_true h1, h2⟩
    · rw [if_neg hc] at h
      exact ih h

theorem oaFindBest_complete {r : Str} {run : Nat} :
    ∀ {n : Nat}, oaFindBest r run n = none →
      ∀ d, 20 ≤ d → d ≤ 19 + n → d + 8 ≤ run → sliceEqT3 r d = true → False := by
  intro n
  induction n with
  | zero => intro _ d h1 h2; omega
  | succ n ih =>
    intro h d h1 h2 h3 h4
    rw [oaFindBest] at h
    by_cases hc : (19 + (n + 1) + 8 ≤ run && sliceEqT3 r (19 + (n + 1))) = true
    · rw [if_pos hc] at h; exact absurd h (by simp)
    · rw [if_neg hc] at h
      by_cases hd : d = 19 + (n + 1)
      · subst hd
        exact hc (Bool.and_eq_true_iff.mpr ⟨decide_eq_true h3, h4⟩)
      · exact ih h d h1 (by omega) h3 h4

theorem oaMatchAt_cons (a b c : Char) (r : Str) :
    oaMatchAt (a :: b :: c :: r) =
      if a = 's' ∧ b = 'k' ∧ c = '-' then
        match oaFindBest r (countWhile isAlnum r) (countWhile isAlnum r - 27) with
        | some d => some (3 + d + 8)
        | none => none
      else none := rfl

theorem oaMatchAt_decomp {s : Str} {L : Nat} (h : oaMatchAt s = some L) :
    ∃ mid rest : Str, s = 's' :: 'k' :: '-' :: (mid ++ t3lit ++ rest) ∧
      (∀ c ∈ mid, isAlnum c = true) ∧ 20 ≤ mid.length ∧ L = 3 + mid.length + 8 := by
  cases s with
  | nil => exact absurd h (by simp [oaMatchAt])
  | cons a s1 =>
    cases s1 with
    | nil => exact absurd h (by simp [oaMatchAt])
    | cons b s2 =>
      cases s2 with
      | nil => exact absurd h (by simp [oaMatchAt])
      | cons c r =>
        rw [oaMatchAt_cons] at h
        by_cases habc : a = 's' ∧ b = 'k' ∧ c = '-'
        case neg => rw [if_neg habc] at h; exact absurd h (by simp)
        case pos =>
          rw [if_pos habc] at h
          rcases habc with ⟨rfl, rfl, rfl⟩
          cases hd : oaFindBest r (countWhile isAlnum r) (countWhile isAlnum r - 27) with
          | none => rw [hd] at h; exact absurd h (by simp)
          | some d =>
            rw [hd] at h
            rcases oaFindBest_some hd with ⟨h20, hdr, hsl⟩
            have hL : L = 3 + d + 8 := by cases h; rfl
            have hrun : countWhile isAlnum r ≤ r.length := countWhile_le _ _
            rw [sliceEqT3, beq_iff_eq] at hsl
            refine ⟨r.take d, (r.drop d).drop t3lit.length, ?_, ?_, ?_, ?_⟩
            · have hr : r = r.take d ++ (t3lit ++ (r.drop d).drop t3lit.length) := by
                conv_lhs => rw [← List.take_append_drop d r]
                congr 1
                conv_lhs => rw [← List.take_append_drop t3lit.length (r.drop d)]
                rw [hsl]
              rw [← List.append_assoc] at hr
              rw [← hr]
            · intro c hc
              have hsub : r.take d ⊆ r.take (countWhile isAlnum r) := by
                intro x hx
                have htt : r.take d = (r.take (countWhile isAlnum r)).take d := by
                  rw [List.take_take, Nat.min_eq_left (by omega)]
                rw [htt] at hx
                exact List.take_subset _ _ hx
              exact countWhile_all isAlnum r c (hsub hc)
            · have : (r.take d).length = d := by
                simp only [List.length_take]
                omega
              omega
            · have : (r.take d).length = d := by
                simp only [List.length_take]
                omega
              omega

theorem oaMatchAt_recon {mid : Str} (rest : Str) (hmid : ∀ c ∈ mid, isAlnum c = true)
    (hlen : 20 ≤ mid.length) :
    ∃ L, oaMatchAt ('s' :: 'k' :: '-' :: (mid ++ t3lit ++ rest)) = some L := by
  have hall : ∀ c ∈ mid ++ t3lit, isAlnum c = true := by
    intro c hc
    rcases List.mem_append.mp hc with h | h
    · exact hmid c h
    · exact t3lit_alnum c h
  have hrun : countWhile isAlnum (mid ++ t3lit ++ rest)
      = (mid ++ t3lit).length + countWhile isAlnum rest :=
    countWhile_append_all isAlnum rest hall
  have hrunge : mid.length + 8 ≤ countWhile isAlnum (mid ++ t3lit ++ rest) := by
    rw [hrun]
    simp only [List.length_append, t3lit_length]
    omega
  have hsl : sliceEqT3 (mid ++ t3lit ++ rest) mid.length = true := by
    rw [sliceEqT3, beq_iff_eq, List.append_assoc, List.drop_left, List.take_left]
  rw [oaMatchAt_cons, if_pos ⟨rfl, rfl, rfl⟩]
  cases hfb : oaFindBest (mid ++ t3lit ++ rest) (countWhile isAlnum (mid ++ t3lit ++ rest))
      ((countWhile isAlnum (mid ++ t3lit ++ rest)) - 27) with
  | none =>
    exact absurd (oaFindBest_complete hfb mid.length hlen (by omega) hrunge hsl) (by simp)
  | some d => exact ⟨3 + d + 8, rfl⟩

theorem awsMatchAt_decomp {s : Str} {L : Nat} (h : awsMatchAt s = some L) :
    L = 20 ∧ ∃ body rest : Str, s = "AKIA".data ++ body ++ rest ∧
      body.length = 16 ∧ (∀ c ∈ body, isUpperDigit c = true) := by
  rw [awsMatchAt] at h
  by_cases hc : (s.take 4 == "AKIA".data && ((s.drop 4).take 16).all isUpperDigit
      && 20 ≤ s.length) = true
  · rw [if_pos hc] at h
    have hL : L = 20 := by cases h; rfl
    rcases Bool.and_eq_true_iff.mp hc with ⟨hc1, hc3⟩
    rcases Bool.and_eq_true_iff.mp hc1 with ⟨hc4, hc2⟩
    rw [beq_iff_eq] at hc4
    have hslen : 20 ≤ s.length := of_decide_eq_true hc3
    refine ⟨hL, (s.drop 4).take 16, (s.drop 4).drop 16, ?_, ?_, ?_⟩
    · rw [← hc4, List.append_assoc, List.take_append_drop, List.take_append_drop]
    · simp only [List.length_take, List.length_drop]
      omega
    · intro c hcm
      exact List.all_eq_true.mp hc2 c hcm
  · rw [if_neg hc] at h
    exact absurd h (by simp)

theorem awsMatchAt_recon {body : Str} (rest : Str) (hlen : body.length = 16)
    (hbody : ∀ c ∈ body, isUpperDigit c = true) :
    awsMatchAt ("AKIA".data ++ body ++ rest) = some 20 := by
  have h4 : ("AKIA".data ++ body ++ rest).take 4 = "AKIA".data := by
    rw [List.append_assoc]
    exact List.take_left' (by decide)
  have hdrop : ("AKIA".data ++ body ++ rest).drop 4 = body ++ rest := by
    rw [List.append_assoc]
    exact List.drop_left' (by decide)
  have h16 : (("AKIA".data ++ body ++ rest).drop 4).take 16 = body := by
    rw [hdrop]
    exact List.take_left' hlen
  rw [awsMatchAt, if_pos]
  rw [Bool.and_eq_true_iff]
  refine ⟨Bool.and_eq_true_iff.mpr ⟨?_, ?_⟩, ?_⟩
  · rw [h4]; simp
  · rw [h16]
    exact List.all_eq_true.mpr hbody
  · apply decide_eq_true
    have hlen4 : ("AKIA".data : Str).length = 4 := by decide
    have htot : ("AKIA".data ++ body ++ rest).length
        = ("AKIA".data : Str).length + body.length + rest.length := by
      rw [List.length_append, List.length_append]
    rw [htot, hlen4, hlen]
    omega

/-! ### The three detectors are well-behaved -/

theorem genWhole_length {kw ws1 ws2 sec : Str} {sp q q' : Char} :
    (genWhole kw ws1 ws2 sec sp q q').length
      = kw.length + ws1.length + 1 + ws2.length + 1 + sec.length + 1 := by
  simp [genWhole]
  omega

theorem genFind_some {s : Str} {l : Nat} {r : Str} (h : genFind s = some (l, r)) :
    ∃ m, genericMatchAt s = some m ∧ l = m.len ∧
      r = strReplace (s.take m.len) ((s.drop m.secStart).take m.secLen) redactedSecret := by
  simp only [genFind, Option.map_eq_some'] at h
  rcases h with ⟨m, hm, heq⟩
  exact ⟨m, hm, by cases heq; exact ⟨rfl, rfl⟩⟩

theorem goodDetector_gen : GoodDetector genFind := by
  intro s l r h
  rcases genFind_some h with ⟨m, hm, hl, _⟩
  rcases genericMatchAt_decomp hm with ⟨kw, ws1, ws2, sec, sp, q, q', rest, hs, h1, h2, h3, h4, _⟩
  have hslen : s.length = (genWhole kw ws1 ws2 sec sp q q').length + rest.length := by
    rw [hs]; simp
  rw [genWhole_length] at hslen
  subst hl
  simp only [GenMatch.len, GenMatch.secStart]
  omega

theorem goodDetector_oa : GoodDetector oaFind := by
  intro s l r h
  simp only [oaFind, Option.map_eq_some'] at h
  rcases h with ⟨L, hL, heq⟩
  have hl : l = L := by cases heq; rfl
  subst hl
  rcases oaMatchAt_decomp hL with ⟨mid, rest, hs, _, hlen, hLv⟩
  have hsl : s.length = 3 + mid.length + 8 + rest.length := by
    rw [hs]
    simp only [List.length_cons, List.length_append, t3lit_length]
    omega
  omega

theorem goodDetector_aws : GoodDetector awsFind := by
  intro s l r h
  simp only [awsFind, Option.map_eq_some'] at h
  rcases h with ⟨L, hL, heq⟩
  have hl : l = L := by cases heq; rfl
  subst hl
  rcases awsMatchAt_decomp hL with ⟨h20, body, rest, hs, hblen, _⟩
  have h4 : ("AKIA".data : Str).length = 4 := by decide
  have htot : s.length = ("AKIA".data : Str).length + body.length + rest.length := by
    rw [hs, List.length_append, List.length_append]
  omega

/-! ### Infix decomposition helpers -/

theorem infix_append_split {w a b : Str} (h : w <:+: a ++ b) :
    w <:+: a ∨ w <:+: b ∨
      ∃ w₁ w₂, w = w₁ ++ w₂ ∧ w₁ ≠ [] ∧ w₂ ≠ [] ∧ w₁ <:+ a ∧ w₂ <+: b := by
  rcases h with ⟨u, v, huv⟩
  by_cases h1 : u.length + w.length ≤ a.length
  · left
    have hu : u.length ≤ a.length := by omega
    have hw : w.length ≤ a.length - u.length := by omega
    have ha : (u ++ w ++ v).take a.length = a := by rw [huv, List.take_left]
    rw [List.append_assoc, List.take_append_eq_append_take,
      List.take_of_length_le hu, List.take_append_eq_append_take,
      List.take_of_length_le hw] at ha
    refine ⟨u, v.take (a.length - u.length - w.length), ?_⟩
    rw [← List.append_assoc] at ha
    exact ha
  · by_cases h2 : a.length ≤ u.length
    · right; left
      have hb : (u ++ w ++ v).drop a.length = b := by rw [huv, List.drop_left]
      rw [List.append_assoc, List.drop_append_eq_append_drop,
        Nat.sub_eq_zero_of_le h2, List.drop_zero] at hb
      refine ⟨u.drop a.length, v, ?_⟩
      rw [← List.append_assoc] at hb
      exact hb
    · right; right
      refine ⟨w.take (a.length - u.length), w.drop (a.length - u.length),
        (List.take_append_drop _ _).symm, ?_, ?_, ?_, ?_⟩
      · intro e
        have he := congrArg List.length e
        simp only [List.length_take, List.length_nil] at he
        omega
      · intro e
        have he := congrArg List.length e
        simp only [List.length_drop, List.length_nil] at he
        omega
      · have hu : u.length ≤ a.length := by omega
        have hz : a.length - u.length - w.length = 0 := by omega
        have ha : (u ++ w ++ v).take a.length = a := by rw [huv, List.take_left]
        rw [List.append_assoc, List.take_append_eq_append_take,
          List.take_of_length_le hu, List.take_append_eq_append_take, hz,
          List.take_zero, List.append_nil] at ha
        exact ⟨u, ha⟩
      · have hu : u.length ≤ a.length := by omega
        have hz : a.length - u.length - w.length = 0 := by omega
        have hb : (u ++ w ++ v).drop a.length = b := by rw [huv, List.drop_left]
        rw [List.append_assoc, List.drop_append_eq_append_drop,
          List.drop_of_length_le hu, List.nil_append,
          List.drop_append_eq_append_drop, hz, List.drop_zero] at hb
        exact ⟨v, hb⟩

theorem prefix_cons_mem {w b : Str} {c : Char} (h : w <+: c :: b) (hne : w ≠ []) :
    c ∈ w := by
  cases w with
  | nil => exact absurd rfl hne
  | cons w₀ w' =>
    rcases h with ⟨t, ht⟩
    rw [List.cons_append] at ht
    have : w₀ = c := by
      have := congrArg (fun l => l.head?) ht
      simpa using this
    rw [this]
    exact List.mem_cons_self _ _

theorem suffix_snoc_mem {w a : Str} {c : Char} (h : w <:+ a ++ [c]) (hne : w ≠ []) :
    c ∈ w := by
  have hr : w.reverse <+: c :: a.reverse := by
    rcases h with ⟨t, ht⟩
    refine ⟨t.reverse, ?_⟩
    have := congrArg List.reverse ht
    simpa [List.reverse_append] using this
  have hcr : c ∈ w.reverse := prefix_cons_mem hr (by simpa using hne)
  simpa using hcr

theorem infix_cons_of_not_mem {w b : Str} {c : Char} (hc : c ∉ w)
    (h : w <:+: c :: b) : w <:+: b := by
  rcases h with ⟨u, v, huv⟩
  cases u with
  | nil =>
    rw [List.nil_append] at huv
    cases w with
    | nil => exact List.nil_infix
    | cons w₀ w' =>
      rw [List.cons_append] at huv
      have hw0 : w₀ = c := by
        have := congrArg (fun l => l.head?) huv
        simpa using this
      exact absurd (hw0 ▸ List.mem_cons_self w₀ w') hc
  | cons u₀ u' =>
    rw [List.cons_append] at huv
    exact ⟨u', v, by
      have := congrArg List.tail huv
      simpa using this⟩

theorem infix_snoc_of_not_mem {w a : Str} {c : Char} (hc : c ∉ w)
    (h : w <:+: a ++ [c]) : w <:+: a := by
  have hr : w.reverse <:+: c :: a.reverse := by
    rcases h with ⟨u, v, huv⟩
    refine ⟨v.reverse, u.reverse, ?_⟩
    have := congrArg List.reverse huv
    simp only [List.reverse_append] at this
    simpa [List.append_assoc] using this
  have := infix_cons_of_not_mem (by simpa using hc) hr
  rcases this with ⟨u', v', huv'⟩
  refine ⟨v'.reverse, u'.reverse, ?_⟩
  have := congrArg List.reverse huv'
  simp only [List.reverse_reverse, List.reverse_append] at this
  simpa [List.append_assoc] using this

/-- The workhorse: a `[`/`]`-free infix of `A ++ ('[' :: M ++ [']']) ++ B` lies
entirely inside `A`, inside `M`, or inside `B`. -/
theorem infix_bracketed_split {w A M B : Str}
    (hl : '[' ∉ w) (hr : ']' ∉ w)
    (h : w <:+: A ++ ('[' :: (M ++ [']'])) ++ B) :
    w <:+: A ∨ w <:+: M ∨ w <:+: B := by
  rw [List.append_assoc] at h
  rcases infix_append_split h with hA | hrest | ⟨w₁, w₂, hw, hw1, hw2, _, hpre⟩
  · exact Or.inl hA
  · have hBr : w <:+: (M ++ [']']) ++ B := by
      rw [List.cons_append] at hrest
      exact infix_cons_of_not_mem hl hrest
    rw [List.append_assoc, List.singleton_append] at hBr
    rcases infix_append_split hBr with hM | htail | ⟨w₁, w₂, hw, hw1, hw2, _, hpre⟩
    · exact Or.inr (Or.inl hM)
    · exact Or.inr (Or.inr (infix_cons_of_not_mem hr htail))
    · have : ']' ∈ w := by
        rw [hw]
        exact List.mem_append_right w₁ (prefix_cons_mem hpre hw2)
      exact absurd this hr
  · have : '[' ∈ w := by
      rw [hw]
      rw [List.cons_append] at hpre
      exact List.mem_append_right w₁ (prefix_cons_mem hpre hw2)
    exact absurd this hl

/-! ### Structure of the redaction placeholders -/

/-- Interior of `[REDACTED_SECRET]`. -/
def redactedSecretMid : Str := "REDACTED_SECRET".data

/-- Interior of `[REDACTED_OPENAI_KEY]`. -/
def redactedOpenaiMid : Str := "REDACTED_OPENAI_KEY".data

/-- Interior of `[REDACTED_AWS_KEY]`. -/
def redactedAwsMid : Str := "REDACTED_AWS_KEY".data

theorem redactedSecret_eq : redactedSecret = '[' :: (redactedSecretMid ++ [']']) := by
  decide

theorem redactedOpenai_eq : redactedOpenai = '[' :: (redactedOpenaiMid ++ [']']) := by
  decide

theorem redactedAws_eq : redactedAws = '[' :: (redactedAwsMid ++ [']']) := by
  decide

/-! ### Detector-level decomposition -/

theorem genFind_decomp {s : Str} {l : Nat} {r : Str} (h : genFind s = some (l, r)) :
    ∃ kw ws1 ws2 sec : Str, ∃ sp q q' : Char, ∃ rest : Str,
      s = genWhole kw ws1 ws2 sec sp q q' ++ rest ∧
      l = (genWhole kw ws1 ws2 sec sp q q').length ∧
      r = strReplace (genWhole kw ws1 ws2 sec sp q q') sec redactedSecret ∧
      GenPieces kw ws1 ws2 sec sp q q' := by
  rcases genFind_some h with ⟨m, hm, hl, hr⟩
  rcases genericMatchAt_decomp hm with ⟨kw, ws1, ws2, sec, sp, q, q', rest, hs, h1, h2, h3, h4, hp⟩
  have hmlen : m.len = (genWhole kw ws1 ws2 sec sp q q').length := by
    rw [genWhole_length]
    simp only [GenMatch.len, GenMatch.secStart]
    omega
  have htake : s.take m.len = genWhole kw ws1 ws2 sec sp q q' := by
    rw [hs]
    exact List.take_left' hmlen.symm
  have hsplit : s = (kw ++ ws1 ++ [sp] ++ ws2 ++ [q]) ++ (sec ++ (q' :: rest)) := by
    rw [hs, genWhole]
    simp [List.append_assoc]
  have hpre_len : (kw ++ ws1 ++ [sp] ++ ws2 ++ [q]).length = m.secStart := by
    simp only [List.length_append, List.length_singleton, GenMatch.secStart]
    omega
  have hdrop : s.drop m.secStart = sec ++ (q' :: rest) := by
    rw [hsplit]
    exact List.drop_left' hpre_len
  have hsec : (s.drop m.secStart).take m.secLen = sec := by
    rw [hdrop]
    exact List.take_left' h4
  refine ⟨kw, ws1, ws2, sec, sp, q, q', rest, hs, by rw [hl, hmlen], ?_, hp⟩
  rw [hr, htake, hsec]

theorem oaFind_decomp {s : Str} {l : Nat} {r : Str} (h : oaFind s = some (l, r)) :
    r = redactedOpenai ∧ ∃ mid rest : Str,
      s = 's' :: 'k' :: '-' :: (mid ++ t3lit ++ rest) ∧
      (∀ c ∈ mid, isAlnum c = true) ∧ 20 ≤ mid.length ∧ l = 3 + mid.length + 8 := by
  simp only [oaFind, Option.map_eq_some'] at h
  rcases h with ⟨L, hL, heq⟩
  have hlr : l = L ∧ r = redactedOpenai := by cases heq; exact ⟨rfl, rfl⟩
  rcases hlr with ⟨rfl, rfl⟩
  exact ⟨rfl, oaMatchAt_decomp hL⟩

theorem awsFind_decomp {s : Str} {l : Nat} {r : Str} (h : awsFind s = some (l, r)) :
    l = 20 ∧ r = redactedAws ∧ ∃ body rest : Str,
      s = "AKIA".data ++ body ++ rest ∧ body.length = 16 ∧
      (∀ c ∈ body, isUpperDigit c = true) := by
  simp only [awsFind, Option.map_eq_some'] at h
  rcases h with ⟨L, hL, heq⟩
  have hlr : l = L ∧ r = redactedAws := by cases heq; exact ⟨rfl, rfl⟩
  rcases hlr with ⟨rfl, rfl⟩
  rcases awsMatchAt_decomp hL with ⟨h20, hrest⟩
  exact ⟨h20, rfl, hrest⟩

/-! ### A shape occurring as an infix forces a match -/

theorem noMatch_gen_no_whole {z : Str} (hnm : NoMatch genFind z)
    {kw ws1 ws2 sec : Str} {sp q q' : Char}
    (hp : GenPieces kw ws1 ws2 sec sp q q')
    (hinf : genWhole kw ws1 ws2 sec sp q q' <:+: z) : False := by
  rcases hinf with ⟨u, v, huv⟩
  have hdrop : z.drop u.length = genWhole kw ws1 ws2 sec sp q q' ++ v := by
    rw [← huv, List.append_assoc, List.drop_left]
  have hmatch := genericMatchAt_recon v hp
  have := hnm u.length
  rw [hdrop] at this
  simp only [genFind, hmatch, Option.map_eq_none'] at this
  exact absurd this (by simp)

theorem noMatch_oa_no_shape {z : Str} (hnm : NoMatch oaFind z)
    {mid : Str} (hmid : ∀ c ∈ mid, isAlnum c = true) (hlen : 20 ≤ mid.length)
    (hinf : ('s' :: 'k' :: '-' :: (mid ++ t3lit)) <:+: z) : False := by
  rcases hinf with ⟨u, v, huv⟩
  have hdrop : z.drop u.length = 's' :: 'k' :: '-' :: (mid ++ t3lit ++ v) := by
    rw [← huv, List.append_assoc, List.drop_left, List.cons_append, List.cons_append,
      List.cons_append, List.append_assoc]
  rcases oaMatchAt_recon v hmid hlen with ⟨L, hL⟩
  have := hnm u.length
  rw [hdrop] at this
  simp only [oaFind, hL, Option.map_eq_none'] at this
  exact absurd this (by simp)

theorem noMatch_aws_no_shape {z : Str} (hnm : NoMatch awsFind z)
    {body : Str} (hlen : body.length = 16)
    (hbody : ∀ c ∈ body, isUpperDigit c = true)
    (hinf : ("AKIA".data ++ body) <:+: z) : False := by
  rcases hinf with ⟨u, v, huv⟩
  have hdrop : z.drop u.length = "AKIA".data ++ body ++ v := by
    rw [← huv, List.append_assoc, List.drop_left, List.append_assoc]
  have hmatch := awsMatchAt_recon v hlen hbody
  have := hnm u.length
  rw [hdrop] at this
  simp only [awsFind, hmatch, Option.map_eq_none'] at this
  exact absurd this (by simp)

/-! ### Alphabet facts about match shapes -/

theorem genWhole_chars {kw ws1 ws2 sec : Str} {sp q q' : Char}
    (hp : GenPieces kw ws1 ws2 sec sp q q') :
    ∀ c ∈ genWhole kw ws1 ws2 sec sp q q',
      isKwChar c = true ∨ isWs c = true ∨ isSep c = true ∨ isQuote c = true ∨
        isWordChar c = true := by
  rcases hp with ⟨hmem, hws1, hsep, hws2, hq, hsec, _, hq'⟩
  intro c hc
  rw [genWhole] at hc
  rcases List.mem_append.mp hc with hc | hc
  · rcases List.mem_append.mp hc with hc | hc
    · rcases List.mem_append.mp hc with hc | hc
      · rcases List.mem_append.mp hc with hc | hc
        · rcases List.mem_append.mp hc with hc | hc
          · rcases List.mem_append.mp hc with hc | hc
            · exact Or.inl (kw_chars hmem c hc)
            · exact Or.inr (Or.inl (hws1 c hc))
          · rw [List.mem_singleton] at hc
            subst hc
            exact Or.inr (Or.inr (Or.inl hsep))
        · exact Or.inr (Or.inl (hws2 c hc))
      · rw [List.mem_singleton] at hc
        subst hc
        exact Or.inr (Or.inr (Or.inr (Or.inl hq)))
    · exact Or.inr (Or.inr (Or.inr (Or.inr (hsec c hc))))
  · rw [List.mem_singleton] at hc
    subst hc
    exact Or.inr (Or.inr (Or.inr (Or.inl hq')))

theorem genWhole_no_lbracket {kw ws1 ws2 sec : Str} {sp q q' : Char}
    (hp : GenPieces kw ws1 ws2 sec sp q q') :
    '[' ∉ genWhole kw ws1 ws2 sec sp q q' := by
  intro hc
  rcases genWhole_chars hp '[' hc with h | h | h | h | h
  · exact kwChar_ne_lbracket h rfl
  · exact ws_ne_lbracket h rfl
  · exact sep_ne_lbracket h rfl
  · exact quote_ne_lbracket h rfl
  · exact wordChar_ne_lbracket h rfl

theorem genWhole_no_rbracket {kw ws1 ws2 sec : Str} {sp q q' : Char}
    (hp : GenPieces kw ws1 ws2 sec sp q q') :
    ']' ∉ genWhole kw ws1 ws2 sec sp q q' := by
  intro hc
  rcases genWhole_chars hp ']' hc with h | h | h | h | h
  · exact kwChar_ne_rbracket h rfl
  · exact ws_ne_rbracket h rfl
  · exact sep_ne_rbracket h rfl
  · exact quote_ne_rbracket h rfl
  · exact wordChar_ne_rbracket h rfl

theorem countP_singleton_pos {c : Char} {p : Char → Bool} (h : p c = true) :
    List.countP p [c] = 1 := by
  simp [List.countP_cons, h]

theorem countP_eq_zero_of_all {l : Str} {p : Char → Bool}
    (h : ∀ c ∈ l, p c = false) : l.countP p = 0 :=
  List.countP_eq_zero.mpr (fun c hc => by simp [h c hc])

theorem genWhole_quoteCount {kw ws1 ws2 sec : Str} {sp q q' : Char}
    (hp : GenPieces kw ws1 ws2 sec sp q q') :
    (genWhole kw ws1 ws2 sec sp q q').countP isQuote = 2 := by
  rcases hp with ⟨hmem, hws1, hsep, hws2, hq, hsec, _, hq'⟩
  simp only [genWhole, List.countP_append]
  rw [countP_eq_zero_of_all (fun c hc => kwChar_not_quote (kw_chars hmem c hc)),
    countP_eq_zero_of_all (fun c hc => ws_not_quote (hws1 c hc)),
    countP_eq_zero_of_all (fun c hc => ws_not_quote (hws2 c hc)),
    countP_eq_zero_of_all (fun c hc => wordChar_not_quote (hsec c hc)),
    countP_singleton_pos hq, countP_singleton_pos hq']
  rw [countP_eq_zero_of_all (p := isQuote) (l := [sp])
    (fun c hc => by rw [List.mem_singleton] at hc; rw [hc]; exact sep_not_quote hsep)]

theorem countP_le_of_infix {w z : Str} (p : Char → Bool) (h : w <:+: z) :
    w.countP p ≤ z.countP p := by
  rcases h with ⟨u, v, huv⟩
  rw [← huv, List.countP_append, List.countP_append]
  omega

theorem infix_of_take {w z : Str} {n : Nat} (h : w <:+: z.take n) : w <:+: z :=
  h.trans (List.take_prefix n z).isInfix

/-! ### After its own pass, the AWS detector no longer matches -/

theorem awsFind_nil : awsFind ([] : Str) = none := by decide

theorem akiaData_chars : ∀ c ∈ ("AKIA".data : Str), isUpperDigit c = true := by decide

theorem akiaData_length : ("AKIA".data : Str).length = 4 := by decide

theorem redactedAwsMid_length : (redactedAwsMid : Str).length = 16 := by decide

theorem noMatch_aws_replaceAll : ∀ (n : Nat) (s : Str), s.length ≤ n →
    NoMatch awsFind (replaceAll awsFind s) := by
  intro n
  induction n with
  | zero =>
    intro s hs
    have hnil : s = [] := List.eq_nil_of_length_eq_zero (by omega)
    subst hnil
    have h0 : findLeftmost awsFind ([] : Str) = none := by
      simp [findLeftmost, awsFind_nil]
    rw [replaceAll_of_none h0]
    intro i
    rw [List.drop_nil]
    exact awsFind_nil
  | succ n ih =>
    intro s hs
    cases hfl : findLeftmost awsFind s with
    | none =>
      rw [replaceAll_of_none hfl]
      exact (findLeftmost_eq_none_iff _ _).mp hfl
    | some plr =>
      rcases plr with ⟨p, l, r⟩
      rcases findLeftmost_some _ hfl with ⟨hfp, hple, hbefore⟩
      rcases awsFind_decomp hfp with ⟨hl20, hrR, body, rest, hsp, hblen, hbody⟩
      subst hl20
      subst hrR
      rw [replaceAll_unfold goodDetector_aws hfl]
      have hih : NoMatch awsFind (replaceAll awsFind (s.drop (p + 20))) :=
        ih (s.drop (p + 20)) (by simp only [List.length_drop]; omega)
      intro i
      by_contra hne
      rcases Option.ne_none_iff_exists'.mp hne with ⟨⟨l₂, r₂⟩, hsome⟩
      rcases awsFind_decomp hsome with ⟨_, _, body₂, rest₂, hdz, hblen₂, hbody₂⟩
      have hwlen : ("AKIA".data ++ body₂).length = 20 := by
        rw [List.length_append, akiaData_length, hblen₂]
      have hwinf : ("AKIA".data ++ body₂) <:+:
          s.take p ++ redactedAws ++ replaceAll awsFind (s.drop (p + 20)) := by
        refine ⟨(s.take p ++ redactedAws ++ replaceAll awsFind (s.drop (p + 20))).take i,
          rest₂, ?_⟩
        conv_rhs => rw [← List.take_append_drop i
          (s.take p ++ redactedAws ++ replaceAll awsFind (s.drop (p + 20))), hdz]
        simp [List.append_assoc]
      have hwchars : ∀ c ∈ ("AKIA".data ++ body₂), isUpperDigit c = true := by
        intro c hc
        rcases List.mem_append.mp hc with h | h
        · exact akiaData_chars c h
        · exact hbody₂ c h
      have hwl : '[' ∉ ("AKIA".data ++ body₂) :=
        fun hm => upperDigit_ne_lbracket (hwchars _ hm) rfl
      have hwr : ']' ∉ ("AKIA".data ++ body₂) :=
        fun hm => upperDigit_ne_rbracket (hwchars _ hm) rfl
      rw [redactedAws_eq] at hwinf
      rcases infix_bracketed_split hwl hwr hwinf with hA | hM | hB
      · rcases hA with ⟨u, v, huv⟩
        have hplen : (s.take p).length = p := by
          simp only [List.length_take]
          omega
        have hulen : u.length + 20 + v.length = p := by
          have := congrArg List.length huv
          simp only [List.length_append, hwlen, hplen] at this
          omega
        have hs2 : s = u ++ (("AKIA".data ++ body₂) ++ (v ++ s.drop p)) := by
          conv_lhs => rw [← List.take_append_drop p s, ← huv]
          simp [List.append_assoc]
        have hsd : s.drop u.length = ("AKIA".data ++ body₂) ++ (v ++ s.drop p) := by
          conv_lhs => rw [hs2]
          rw [List.drop_left]
        have hrec := awsMatchAt_recon (v ++ s.drop p) hblen₂ hbody₂
        have hnone := hbefore u.length (by omega)
        rw [hsd] at hnone
        simp only [awsFind] at hnone
        rw [List.append_assoc] at hnone
        rw [List.append_assoc] at hrec
        rw [hrec] at hnone
        exact absurd hnone (by simp)
      · have h1 := hM.length_le
        rw [hwlen, redactedAwsMid_length] at h1
        omega
      · exact noMatch_aws_no_shape hih hblen₂ hbody₂ hB

/-! ### After its own pass, the OpenAI detector no longer matches -/

theorem oaFind_nil : oaFind ([] : Str) = none := rfl

theorem redactedOpenaiMid_length : (redactedOpenaiMid : Str).length = 19 := by decide

theorem oaShape_no_lbracket {mid : Str} (hmid : ∀ c ∈ mid, isAlnum c = true) :
    '[' ∉ ('s' :: 'k' :: '-' :: (mid ++ t3lit)) := by
  intro hm
  rcases List.mem_cons.mp hm with h | hm'
  · exact absurd h (by decide)
  rcases List.mem_cons.mp hm' with h | hm''
  · exact absurd h (by decide)
  rcases List.mem_cons.mp hm'' with h | hm'''
  · exact absurd h (by decide)
  rcases List.mem_append.mp hm''' with h | h
  · exact alnum_ne_lbracket (hmid _ h) rfl
  · exact alnum_ne_lbracket (t3lit_alnum _ h) rfl

theorem oaShape_no_rbracket {mid : Str} (hmid : ∀ c ∈ mid, isAlnum c = true) :
    ']' ∉ ('s' :: 'k' :: '-' :: (mid ++ t3lit)) := by
  intro hm
  rcases List.mem_cons.mp hm with h | hm'
  · exact absurd h (by decide)
  rcases List.mem_cons.mp hm' with h | hm''
  · exact absurd h (by decide)
  rcases List.mem_cons.mp hm'' with h | hm'''
  · exact absurd h (by decide)
  rcases List.mem_append.mp hm''' with h | h
  · exact alnum_ne_rbracket (hmid _ h) rfl
  · exact alnum_ne_rbracket (t3lit_alnum _ h) rfl

theorem oaShape_length {mid : Str} :
    ('s' :: 'k' :: '-' :: (mid ++ t3lit)).length = 3 + mid.length + 8 := by
  simp only [List.length_cons, List.length_append, t3lit_length]
  omega

theorem noMatch_oa_replaceAll : ∀ (n : Nat) (s : Str), s.length ≤ n →
    NoMatch oaFind (replaceAll oaFind s) := by
  intro n
  induction n with
  | zero =>
    intro s hs
    have hnil : s = [] := List.eq_nil_of_length_eq_zero (by omega)
    subst hnil
    have h0 : findLeftmost oaFind ([] : Str) = none := by
      simp [findLeftmost, oaFind_nil]
    rw [replaceAll_of_none h0]
    intro i
    rw [List.drop_nil]
    exact oaFind_nil
  | succ n ih =>
    intro s hs
    cases hfl : findLeftmost oaFind s with
    | none =>
      rw [replaceAll_of_none hfl]
      exact (findLeftmost_eq_none_iff _ _).mp hfl
    | some plr =>
      rcases plr with ⟨p, l, r⟩
      rcases findLeftmost_some _ hfl with ⟨hfp, hple, hbefore⟩
      rcases goodDetector_oa _ _ _ hfp with ⟨hl1, hl2⟩
      rcases oaFind_decomp hfp with ⟨hrR, mid, rest, hsp, hmid, hlenm, hlL⟩
      subst hrR
      rw [replaceAll_unfold goodDetector_oa hfl]
      have hih : NoMatch oaFind (replaceAll oaFind (s.drop (p + l))) := by
        refine ih (s.drop (p + l)) ?_
        simp only [List.length_drop] at hl2 ⊢
        omega
      intro i
      by_contra hne
      rcases Option.ne_none_iff_exists'.mp hne with ⟨⟨l₂, r₂⟩, hsome⟩
      rcases oaFind_decomp hsome with ⟨_, mid₂, rest₂, hdz, hmid₂, hlen₂, _⟩
      have hwlen : ('s' :: 'k' :: '-' :: (mid₂ ++ t3lit)).length = 3 + mid₂.length + 8 :=
        oaShape_length
      have hwinf : ('s' :: 'k' :: '-' :: (mid₂ ++ t3lit)) <:+:
          s.take p ++ redactedOpenai ++ replaceAll oaFind (s.drop (p + l)) := by
        refine ⟨(s.take p ++ redactedOpenai ++ replaceAll oaFind (s.drop (p + l))).take i,
          rest₂, ?_⟩
        conv_rhs => rw [← List.take_append_drop i
          (s.take p ++ redactedOpenai ++ replaceAll oaFind (s.drop (p + l))), hdz]
        simp [List.append_assoc]
      rw [redactedOpenai_eq] at hwinf
      rcases infix_bracketed_split (oaShape_no_lbracket hmid₂) (oaShape_no_rbracket hmid₂)
        hwinf with hA | hM | hB
      · rcases hA with ⟨u, v, huv⟩
        have hplen : (s.take p).length = p := by
          simp only [List.length_take]
          omega
        have hulen : u.length + (3 + mid₂.length + 8) + v.length = p := by
          have := congrArg List.length huv
          simp only [List.length_append, hwlen, hplen] at this
          omega
        have hs2 : s = u ++ ('s' :: 'k' :: '-' :: (mid₂ ++ t3lit ++ (v ++ s.drop p))) := by
          conv_lhs => rw [← List.take_append_drop p s, ← huv]
          simp [List.append_assoc]
        have hsd : s.drop u.length
            = 's' :: 'k' :: '-' :: (mid₂ ++ t3lit ++ (v ++ s.drop p)) := by
          conv_lhs => rw [hs2]
          exact List.drop_left u _
        rcases oaMatchAt_recon (v ++ s.drop p) hmid₂ hlen₂ with ⟨L, hL⟩
        have hnone := hbefore u.length (by omega)
        rw [hsd] at hnone
        simp only [oaFind] at hnone
        rw [hL] at hnone
        exact absurd hnone (by simp)
      · have h1 := hM.length_le
        rw [hwlen, redactedOpenaiMid_length] at h1
        omega
      · exact noMatch_oa_no_shape hih hmid₂ hlen₂ hB

/-! ### Earlier detectors stay matchless through later passes -/

theorem redactedAwsMid_no_sep : ∀ c ∈ (redactedAwsMid : Str), isSep c = false := by
  decide

theorem redactedOpenaiMid_no_sep : ∀ c ∈ (redactedOpenaiMid : Str), isSep c = false := by
  decide

theorem sep_mem_genWhole {kw ws1 ws2 sec : Str} {sp q q' : Char} :
    sp ∈ genWhole kw ws1 ws2 sec sp q q' := by
  rw [genWhole]
  simp

theorem noMatch_oa_preserved_aws : ∀ (n : Nat) (t : Str), t.length ≤ n →
    NoMatch oaFind t → NoMatch oaFind (replaceAll awsFind t) := by
  intro n
  induction n with
  | zero =>
    intro t ht hnm
    have hnil : t = [] := List.eq_nil_of_length_eq_zero (by omega)
    subst hnil
    have h0 : findLeftmost awsFind ([] : Str) = none := by
      simp [findLeftmost, awsFind_nil]
    rw [replaceAll_of_none h0]
    exact hnm
  | succ n ih =>
    intro t ht hnm
    cases hfl : findLeftmost awsFind t with
    | none =>
      rw [replaceAll_of_none hfl]
      exact hnm
    | some plr =>
      rcases plr with ⟨p, l, r⟩
      rcases findLeftmost_some _ hfl with ⟨hfp, hple, _⟩
      rcases awsFind_decomp hfp with ⟨hl20, hrR, body, rest, hsp, hblen, hbody⟩
      subst hl20
      subst hrR
      rw [replaceAll_unfold goodDetector_aws hfl]
      have hih : NoMatch oaFind (replaceAll awsFind (t.drop (p + 20))) :=
        ih (t.drop (p + 20)) (by simp only [List.length_drop]; omega)
          (hnm.drop (p + 20))
      intro i
      by_contra hne
      rcases Option.ne_none_iff_exists'.mp hne with ⟨⟨l₂, r₂⟩, hsome⟩
      rcases oaFind_decomp hsome with ⟨_, mid₂, rest₂, hdz, hmid₂, hlen₂, _⟩
      have hwinf : ('s' :: 'k' :: '-' :: (mid₂ ++ t3lit)) <:+:
          t.take p ++ redactedAws ++ replaceAll awsFind (t.drop (p + 20)) := by
        refine ⟨(t.take p ++ redactedAws ++ replaceAll awsFind (t.drop (p + 20))).take i,
          rest₂, ?_⟩
        conv_rhs => rw [← List.take_append_drop i
          (t.take p ++ redactedAws ++ replaceAll awsFind (t.drop (p + 20))), hdz]
        simp [List.append_assoc]
      rw [redactedAws_eq] at hwinf
      rcases infix_bracketed_split (oaShape_no_lbracket hmid₂) (oaShape_no_rbracket hmid₂)
        hwinf with hA | hM | hB
      · exact noMatch_oa_no_shape hnm hmid₂ hlen₂ (infix_of_take hA)
      · have h1 := hM.length_le
        rw [oaShape_length, redactedAwsMid_length] at h1
        omega
      · exact noMatch_oa_no_shape hih hmid₂ hlen₂ hB

theorem noMatch_gen_preserved_oa : ∀ (n : Nat) (t : Str), t.length ≤ n →
    NoMatch genFind t → NoMatch genFind (replaceAll oaFind t) := by
  intro n
  induction n with
  | zero =>
    intro t ht hnm
    have hnil : t = [] := List.eq_nil_of_length_eq_zero (by omega)
    subst hnil
    have h0 : findLeftmost oaFind ([] : Str) = none := by
      simp [findLeftmost, oaFind_nil]
    rw [replaceAll_of_none h0]
    exact hnm
  | succ n ih =>
    intro t ht hnm
    cases hfl : findLeftmost oaFind t with
    | none =>
      rw [replaceAll_of_none hfl]
      exact hnm
    | some plr =>
      rcases plr with ⟨p, l, r⟩
      rcases findLeftmost_some _ hfl with ⟨hfp, hple, _⟩
      rcases goodDetector_oa _ _ _ hfp with ⟨hl1, hl2⟩
      rcases oaFind_decomp hfp with ⟨hrR, mid, rest, hsp, hmid, hlenm, hlL⟩
      subst hrR
      rw [replaceAll_unfold goodDetector_oa hfl]
      have hih : NoMatch genFind (replaceAll oaFind (t.drop (p + l))) := by
        refine ih (t.drop (p + l)) ?_ (hnm.drop (p + l))
        simp only [List.length_drop] at hl2 ⊢
        omega
      intro i
      by_contra hne
      rcases Option.ne_none_iff_exists'.mp hne with ⟨⟨l₂, r₂⟩, hsome⟩
      rcases genFind_decomp hsome with ⟨kw, ws1, ws2, sec, sp, q, q', rest₂, hdz, _, _, hp⟩
      have hwinf : genWhole kw ws1 ws2 sec sp q q' <:+:
          t.take p ++ redactedOpenai ++ replaceAll oaFind (t.drop (p + l)) := by
        refine ⟨(t.take p ++ redactedOpenai ++ replaceAll oaFind (t.drop (p + l))).take i,
          rest₂, ?_⟩
        conv_rhs => rw [← List.take_append_drop i
          (t.take p ++ redactedOpenai ++ replaceAll oaFind (t.drop (p + l))), hdz]
        simp [List.append_assoc]
      rw [redactedOpenai_eq] at hwinf
      rcases infix_bracketed_split (genWhole_no_lbracket hp) (genWhole_no_rbracket hp)
        hwinf with hA | hM | hB
      · exact noMatch_gen_no_whole hnm hp (infix_of_take hA)
      · have hspm : sp ∈ (redactedOpenaiMid : Str) := hM.subset sep_mem_genWhole
        have := redactedOpenaiMid_no_sep sp hspm
        rw [hp.2.2.1] at this
        exact absurd this (by simp)
      · exact noMatch_gen_no_whole hih hp hB

theorem noMatch_gen_preserved_aws : ∀ (n : Nat) (t : Str), t.length ≤ n →
    NoMatch genFind t → NoMatch genFind (replaceAll awsFind t) := by
  intro n
  induction n with
  | zero =>
    intro t ht hnm
    have hnil : t = [] := List.eq_nil_of_length_eq_zero (by omega)
    subst hnil
    have h0 : findLeftmost awsFind ([] : Str) = none := by
      simp [findLeftmost, awsFind_nil]
    rw [replaceAll_of_none h0]
    exact hnm
  | succ n ih =>
    intro t ht hnm
    cases hfl : findLeftmost awsFind t with
    | none =>
      rw [replaceAll_of_none hfl]
      exact hnm
    | some plr =>
      rcases plr with ⟨p, l, r⟩
      rcases findLeftmost_some _ hfl with ⟨hfp, hple, _⟩
      rcases awsFind_decomp hfp with ⟨hl20, hrR, body, rest, hsp, hblen, hbody⟩
      subst hl20
      subst hrR
      rw [replaceAll_unfold goodDetector_aws hfl]
      have hih : NoMatch genFind (replaceAll awsFind (t.drop (p + 20))) :=
        ih (t.drop (p + 20)) (by simp only [List.length_drop]; omega)
          (hnm.drop (p + 20))
      intro i
      by_contra hne
      rcases Option.ne_none_iff_exists'.mp hne with ⟨⟨l₂, r₂⟩, hsome⟩
      rcases genFind_decomp hsome with ⟨kw, ws1, ws2, sec, sp, q, q', rest₂, hdz, _, _, hp⟩
      have hwinf : genWhole kw ws1 ws2 sec sp q q' <:+:
          t.take p ++ redactedAws ++ replaceAll awsFind (t.drop (p + 20)) := by
        refine ⟨(t.take p ++ redactedAws ++ replaceAll awsFind (t.drop (p + 20))).take i,
          rest₂, ?_⟩
        conv_rhs => rw [← List.take_append_drop i
          (t.take p ++ redactedAws ++ replaceAll awsFind (t.drop (p + 20))), hdz]
        simp [List.append_assoc]
      rw [redactedAws_eq] at hwinf
      rcases infix_bracketed_split (genWhole_no_lbracket hp) (genWhole_no_rbracket hp)
        hwinf with hA | hM | hB
      · exact noMatch_gen_no_whole hnm hp (infix_of_take hA)
      · have hspm : sp ∈ (redactedAwsMid : Str) := hM.subset sep_mem_genWhole
        have := redactedAwsMid_no_sep sp hspm
        rw [hp.2.2.1] at this
        exact absurd this (by simp)
      · exact noMatch_gen_no_whole hih hp hB

/-! ### Splitting `str::replace` across occurrence-free boundaries -/

theorem drop_append_le {x y : Str} {i : Nat} (h : i ≤ x.length) :
    (x ++ y).drop i = x.drop i ++ y := List.drop_append_of_le_length h

theorem drop_append_ge {x y : Str} {i : Nat} (h : x.length ≤ i) :
    (x ++ y).drop i = y.drop (i - x.length) := by
  rw [List.drop_append_eq_append_drop, List.drop_of_length_le h, List.nil_append]

theorem firstOccIdx_eq_some {pat z : Str} {j : Nat} (hne : pat ≠ [])
    (h1 : pat <+: z.drop j) (h2 : ∀ i < j, ¬ pat <+: z.drop i) :
    firstOccIdx pat z = some j := by
  cases hf : firstOccIdx pat z with
  | none => exact absurd h1 (firstOccIdx_none hne hf j)
  | some j' =>
    rcases firstOccIdx_some hne hf with ⟨h1', _, h2'⟩
    congr 1
    by_contra hjj
    rcases Nat.lt_or_ge j' j with hlt | hge
    · exact h2 j' hlt h1'
    · exact h2' j (by omega) h1

/-- An all-word-character pattern cannot occur across the boundary into a
non-word region. -/
theorem occ_word_bounded {pat A M R : Str} (hpat : ∀ x ∈ pat, isWordChar x = true)
    (hM : ∀ x ∈ M, isWordChar x = false) (hMne : M ≠ [])
    {i : Nat} (hi : i ≤ A.length) (hocc : pat <+: (A ++ (M ++ R)).drop i) :
    i + pat.length ≤ A.length := by
  by_contra hgt
  rcases hocc with ⟨t, ht⟩
  rw [drop_append_le hi] at ht
  have ht2 := congrArg (List.drop (A.length - i)) ht
  rw [drop_append_le (show A.length - i ≤ pat.length by omega)] at ht2
  rw [List.drop_left' (by simp)] at ht2
  cases hpd : pat.drop (A.length - i) with
  | nil =>
    have := congrArg List.length hpd
    simp only [List.length_drop, List.length_nil] at this
    omega
  | cons d pd =>
    cases hMc : M with
    | nil => exact hMne hMc
    | cons m M' =>
      rw [hpd, hMc, List.cons_append, List.cons_append] at ht2
      injection ht2 with hdm _
      have hd : d ∈ pat := List.drop_subset _ _ (by rw [hpd]; exact List.mem_cons_self _ _)
      have hm : m ∈ M := by rw [hMc]; exact List.mem_cons_self _ _
      rw [hdm] at hd
      have h1 := hM m hm
      have h2 := hpat m hd
      rw [h2] at h1
      exact absurd h1 (by decide)

/-- An all-word pattern cannot begin inside an all-non-word region. -/
theorem no_occ_in_nonword {pat M R : Str} (hpat : ∀ x ∈ pat, isWordChar x = true)
    (hpne : pat ≠ []) (hM : ∀ x ∈ M, isWordChar x = false) {i : Nat}
    (hi : i < M.length) (hocc : pat <+: (M ++ R).drop i) : False := by
  rcases hocc with ⟨t, ht⟩
  rw [drop_append_le (by omega)] at ht
  cases hpd : pat with
  | nil => exact hpne hpd
  | cons d pd =>
    cases hMd : M.drop i with
    | nil =>
      have := congrArg List.length hMd
      simp only [List.length_drop, List.length_nil] at this
      omega
    | cons m M' =>
      rw [hpd, hMd, List.cons_append, List.cons_append] at ht
      injection ht with hdm _
      have hd : d ∈ pat := by rw [hpd]; exact List.mem_cons_self _ _
      have hm : m ∈ M := List.drop_subset _ _ (by rw [hMd]; exact List.mem_cons_self _ _)
      rw [hdm] at hd
      have h1 := hM m hm
      have h2 := hpat m hd
      rw [h2] at h1
      exact absurd h1 (by decide)

theorem firstOccIdx_nil {pat : Str} (hne : pat ≠ []) : firstOccIdx pat [] = none := by
  show (if pat.isEmpty then some 0 else none) = none
  rw [if_neg (by simp [isEmpty_eq_false_of_ne_nil hne])]

theorem strReplace_append : ∀ (n : Nat) (x y : Str), x.length ≤ n → ∀ (pat rep : Str),
    pat ≠ [] →
    (∀ i, i < x.length → pat <+: (x ++ y).drop i → i + pat.length ≤ x.length) →
    strReplace (x ++ y) pat rep = strReplace x pat rep ++ strReplace y pat rep := by
  intro n
  induction n with
  | zero =>
    intro x y hx pat rep hne H
    have hnil : x = [] := List.eq_nil_of_length_eq_zero (by omega)
    subst hnil
    rw [List.nil_append, strReplace_of_none (firstOccIdx_nil hne), List.nil_append]
  | succ n ih =>
    intro x y hx pat rep hne H
    have hocc_xy_of_x : ∀ i, i < x.length → pat <+: (x ++ y).drop i → pat <+: x.drop i := by
      intro i hilt hocc
      have hbound := H i hilt hocc
      rw [drop_append_le (by omega)] at hocc
      exact prefix_append_of_length_le hocc (by simp only [List.length_drop]; omega)
    have hocc_x_to_xy : ∀ i, pat <+: x.drop i → pat <+: (x ++ y).drop i := by
      intro i hocc
      have hix : i ≤ x.length := by
        by_contra hgt
        rw [List.drop_of_length_le (by omega)] at hocc
        exact hne (List.prefix_nil.mp hocc)
      rw [drop_append_le hix]
      rcases hocc with ⟨t, ht⟩
      exact ⟨t ++ y, by rw [← List.append_assoc, ht]⟩
    cases hfo : firstOccIdx pat x with
    | some j =>
      rcases firstOccIdx_some hne hfo with ⟨hj1, hj2, hj3⟩
      have hp : 1 ≤ pat.length := length_pos_of_ne_nil hne
      have hfo2 : firstOccIdx pat (x ++ y) = some j := by
        refine firstOccIdx_eq_some hne (hocc_x_to_xy j hj1) ?_
        intro i hij hocc
        exact hj3 i hij (hocc_xy_of_x i (by omega) hocc)
      rw [strReplace_unfold hne hfo2, strReplace_unfold hne hfo]
      rw [List.take_append_of_le_length (by omega)]
      rw [drop_append_le (by omega)]
      have hih := ih (x.drop (j + pat.length)) y
        (by simp only [List.length_drop]; omega) pat rep hne (by
          intro i hilt hocc
          have hdd : (x.drop (j + pat.length) ++ y) = (x ++ y).drop (j + pat.length) := by
            rw [drop_append_le (by omega)]
          rw [hdd, List.drop_drop] at hocc
          have := H (j + pat.length + i) (by
            simp only [List.length_drop] at hilt
            omega) hocc
          simp only [List.length_drop] at hilt ⊢
          omega)
      rw [hih]
      simp [List.append_assoc]
    | none =>
      have hnox : ∀ i, ¬ pat <+: x.drop i := firstOccIdx_none hne hfo
      rw [strReplace_of_none hfo]
      cases hfy : firstOccIdx pat y with
      | none =>
        have hnoy : ∀ i, ¬ pat <+: y.drop i := firstOccIdx_none hne hfy
        have hfoxy : firstOccIdx pat (x ++ y) = none := by
          cases hf : firstOccIdx pat (x ++ y) with
          | none => rfl
          | some j =>
            rcases firstOccIdx_some hne hf with ⟨hj1, _, _⟩
            by_cases hjx : j < x.length
            · exact absurd (hocc_xy_of_x j hjx hj1) (hnox j)
            · rw [drop_append_ge (by omega)] at hj1
              exact absurd hj1 (hnoy (j - x.length))
        rw [strReplace_of_none hfoxy, strReplace_of_none hfy]
      | some j' =>
        rcases firstOccIdx_some hne hfy with ⟨hj1, hj2, hj3⟩
        have hfoxy : firstOccIdx pat (x ++ y) = some (x.length + j') := by
          refine firstOccIdx_eq_some hne ?_ ?_
          · rw [drop_append_ge (by omega), Nat.add_sub_cancel_left]
            exact hj1
          · intro i hij hocc
            by_cases hix : i < x.length
            · exact absurd (hocc_xy_of_x i hix hocc) (hnox i)
            · rw [drop_append_ge (by omega)] at hocc
              exact hj3 (i - x.length) (by omega) hocc
        rw [strReplace_unfold hne hfoxy, strReplace_unfold hne hfy]
        rw [List.take_append_eq_append_take, List.take_of_length_le (by omega),
          Nat.add_sub_cancel_left]
        rw [show x.length + j' + pat.length = x.length + (j' + pat.length) by omega]
        rw [drop_append_ge (by omega), Nat.add_sub_cancel_left]
        simp [List.append_assoc]

/-- The effect of `whole.replace(secret, …)` on the keyword itself: either the
secret does not occur in the keyword, or it occurs once (two occurrences would
need at least 16 characters) and splits the keyword. -/
theorem strReplace_kw {kw sec : Str} (hkwlen : kw.length ≤ 10) (hseclen : 8 ≤ sec.length) :
    strReplace kw sec redactedSecret = kw ∨
    ∃ j, kw = kw.take j ++ sec ++ kw.drop (j + sec.length) ∧
      strReplace kw sec redactedSecret
        = kw.take j ++ redactedSecret ++ kw.drop (j + sec.length) := by
  have hne : sec ≠ [] := by
    intro e
    rw [e] at hseclen
    simp at hseclen
  cases hfo : firstOccIdx sec kw with
  | none => exact Or.inl (strReplace_of_none hfo)
  | some j =>
    right
    rcases firstOccIdx_some hne hfo with ⟨hocc, hjlen, _⟩
    refine ⟨j, ?_, ?_⟩
    · rcases hocc with ⟨t, ht⟩
      have hteq : t = kw.drop (j + sec.length) := by
        have hdt := congrArg (List.drop sec.length) ht
        rw [List.drop_left, List.drop_drop] at hdt
        exact hdt
      conv_lhs => rw [← List.take_append_drop j kw]
      rw [List.append_assoc]
      congr 1
      rw [← hteq]
      exact ht.symm
    · rw [strReplace_unfold hne hfo]
      congr 1
      exact strReplace_of_short hne (by simp only [List.length_drop]; omega)

/-- `whole.replace(secret, P)` splits around the untouched separator segment:
only the keyword portion and the quoted value are rewritten. -/
theorem strReplace_genWhole {kw ws1 ws2 sec : Str} {sp q q' : Char}
    (hp : GenPieces kw ws1 ws2 sec sp q q') :
    strReplace (genWhole kw ws1 ws2 sec sp q q') sec redactedSecret
      = strReplace kw sec redactedSecret
          ++ ((ws1 ++ [sp] ++ ws2 ++ [q]) ++ (redactedSecret ++ [q'])) := by
  rcases hp with ⟨hmem, hws1, hsep, hws2, hq, hsec, hlen, hq'⟩
  have hne : sec ≠ [] := by
    intro e
    rw [e] at hlen
    simp at hlen
  have hMnw : ∀ x ∈ ws1 ++ [sp] ++ ws2 ++ [q], isWordChar x = false := by
    intro x hx
    rcases List.mem_append.mp hx with hx | hx
    · rcases List.mem_append.mp hx with hx | hx
      · rcases List.mem_append.mp hx with hx | hx
        · exact ws_not_word (hws1 x hx)
        · rw [List.mem_singleton] at hx
          subst hx
          exact sep_not_word hsep
      · exact ws_not_word (hws2 x hx)
    · rw [List.mem_singleton] at hx
      subst hx
      exact quote_not_word hq
  have hMne : (ws1 ++ [sp] ++ ws2 ++ [q]) ≠ [] := by
    intro e
    have := congrArg List.length e
    simp at this
  have hshape : genWhole kw ws1 ws2 sec sp q q'
      = kw ++ ((ws1 ++ [sp] ++ ws2 ++ [q]) ++ (sec ++ [q'])) := by
    rw [genWhole]
    simp [List.append_assoc]
  have h1 : strReplace (kw ++ ((ws1 ++ [sp] ++ ws2 ++ [q]) ++ (sec ++ [q']))) sec
        redactedSecret
      = strReplace kw sec redactedSecret
          ++ strReplace ((ws1 ++ [sp] ++ ws2 ++ [q]) ++ (sec ++ [q'])) sec redactedSecret :=
    strReplace_append kw.length kw _ (Nat.le_refl _) sec redactedSecret hne (by
      intro i hi hocc
      exact occ_word_bounded hsec hMnw hMne (by omega) hocc)
  have h2 : strReplace ((ws1 ++ [sp] ++ ws2 ++ [q]) ++ (sec ++ [q'])) sec redactedSecret
      = strReplace (ws1 ++ [sp] ++ ws2 ++ [q]) sec redactedSecret
          ++ strReplace (sec ++ [q']) sec redactedSecret :=
    strReplace_append (ws1 ++ [sp] ++ ws2 ++ [q]).length _ _ (Nat.le_refl _) sec
      redactedSecret hne (by
        intro i hi hocc
        exact (no_occ_in_nonword hsec hne hMnw hi hocc).elim)
  have h3 : strReplace (ws1 ++ [sp] ++ ws2 ++ [q]) sec redactedSecret
      = ws1 ++ [sp] ++ ws2 ++ [q] := by
    apply strReplace_of_none
    cases hf : firstOccIdx sec (ws1 ++ [sp] ++ ws2 ++ [q]) with
    | none => rfl
    | some j =>
      rcases firstOccIdx_some hne hf with ⟨hocc, hl, _⟩
      have hlt : j < (ws1 ++ [sp] ++ ws2 ++ [q]).length := by omega
      have hocc' : sec <+: ((ws1 ++ [sp] ++ ws2 ++ [q]) ++ ([] : Str)).drop j := by
        rw [List.append_nil]
        exact hocc
      exact (no_occ_in_nonword hsec hne hMnw hlt hocc').elim
  have h4 : strReplace (sec ++ [q']) sec redactedSecret = redactedSecret ++ [q'] := by
    have hf : firstOccIdx sec (sec ++ [q']) = some 0 :=
      firstOccIdx_eq_some hne (by rw [List.drop_zero]; exact ⟨[q'], rfl⟩) (by omega)
    rw [strReplace_unfold hne hf, List.take_zero, List.nil_append,
      show (0 + sec.length) = sec.length by omega, List.drop_left]
    rw [strReplace_of_short hne (by simp only [List.length_singleton]; omega)]
  rw [hshape, h1, h2, h3, h4]

/-! ### Quote-char head and counting facts for the generic pass -/

theorem genFind_nil : genFind ([] : Str) = none := by decide

theorem genFind_eq_none_of_quote_head {c : Char} {rest : Str} (hq : isQuote c = true) :
    genFind (c :: rest) = none := by
  by_contra hne
  rcases Option.ne_none_iff_exists'.mp hne with ⟨⟨l, r⟩, hsome⟩
  rcases genFind_decomp hsome with ⟨kw, ws1, ws2, sec, sp, q, q', rest₂, hs, _, _, hp⟩
  have hkwchars := kw_chars hp.1
  have hkwlen := (kw_len hp.1).1
  cases hkw : kw with
  | nil =>
    rw [hkw] at hkwlen
    simp at hkwlen
  | cons c₀ kw' =>
    rw [hkw, genWhole] at hs
    simp only [List.cons_append, List.append_assoc] at hs
    injection hs with h1 _
    have hc₀ := hkwchars c₀ (by rw [hkw]; exact List.mem_cons_self _ _)
    rw [← h1] at hc₀
    have := kwChar_not_quote hc₀
    rw [hq] at this
    exact absurd this (by decide)

theorem noMatch_gen_quote_pre {pre z : Str} (hpre : ∀ c ∈ pre, isQuote c = true)
    (hz : NoMatch genFind z) : NoMatch genFind (pre ++ z) := by
  intro i
  by_cases hi : i < pre.length
  · rw [drop_append_le (by omega)]
    cases hpd : pre.drop i with
    | nil =>
      have := congrArg List.length hpd
      simp only [List.length_drop, List.length_nil] at this
      omega
    | cons c cs =>
      have hc : c ∈ pre :=
        List.drop_subset _ _ (by rw [hpd]; exact List.mem_cons_self _ _)
      rw [List.cons_append]
      exact genFind_eq_none_of_quote_head (hpre c hc)
  · rw [drop_append_ge (by omega)]
    exact hz _

theorem countP_quote_mid {ws1 ws2 : Str} {sp q : Char}
    (hws1 : ∀ c ∈ ws1, isWs c = true) (hsep : isSep sp = true)
    (hws2 : ∀ c ∈ ws2, isWs c = true) (hq : isQuote q = true) :
    (ws1 ++ [sp] ++ ws2 ++ [q]).countP isQuote = 1 := by
  simp only [List.countP_append]
  rw [countP_eq_zero_of_all (fun c hc => ws_not_quote (hws1 c hc)),
    countP_eq_zero_of_all (fun c hc => ws_not_quote (hws2 c hc)),
    countP_singleton_pos hq,
    countP_eq_zero_of_all (p := isQuote) (l := [sp])
      (fun c hc => by rw [List.mem_singleton] at hc; rw [hc]; exact sep_not_quote hsep)]

theorem countP_quote_zero_of_subset_kw {kw x : Str} (hmem : kw.map asciiLower ∈ kwAlts)
    (hsub : x ⊆ kw) : x.countP isQuote = 0 :=
  countP_eq_zero_of_all (fun c hc => kwChar_not_quote (kw_chars hmem c (hsub hc)))

theorem redactedSecretMid_no_sep : ∀ c ∈ (redactedSecretMid : Str), isSep c = false := by
  decide

theorem redactedSecretMid_length : (redactedSecretMid : Str).length = 15 := by decide

theorem redactedSecretMid_quoteCount : (redactedSecretMid : Str).countP isQuote = 0 := by
  decide

/-- A whole generic-match shape cannot sit inside a region `A` that is a prefix
of the scanned text `s` when every position before `p` is match-free (leftmost
minimality) and the part of `A` beyond `p` contains at most one quote. -/
theorem gen_prefix_case {s A tail : Str} {p : Nat} (hs : s = A ++ tail)
    (hq1 : (A.drop p).countP isQuote ≤ 1)
    (hbefore : ∀ i < p, genFind (s.drop i) = none)
    {kw₂ ws1₂ ws2₂ sec₂ : Str} {sp₂ q₂ q₂' : Char}
    (hp₂ : GenPieces kw₂ ws1₂ ws2₂ sec₂ sp₂ q₂ q₂')
    (hinf : genWhole kw₂ ws1₂ ws2₂ sec₂ sp₂ q₂ q₂' <:+: A) : False := by
  rcases hinf with ⟨u, v, huv⟩
  by_cases hu : u.length < p
  · have hs2 : s = u ++ (genWhole kw₂ ws1₂ ws2₂ sec₂ sp₂ q₂ q₂' ++ (v ++ tail)) := by
      rw [hs, ← huv]
      simp [List.append_assoc]
    have hsd : s.drop u.length
        = genWhole kw₂ ws1₂ ws2₂ sec₂ sp₂ q₂ q₂' ++ (v ++ tail) := by
      conv_lhs => rw [hs2]
      exact List.drop_left u _
    have hmatch := genericMatchAt_recon (v ++ tail) hp₂
    have hnone := hbefore u.length hu
    rw [hsd] at hnone
    simp only [genFind, hmatch, Option.map_eq_none'] at hnone
    exact absurd hnone (by simp)
  · have hup : p ≤ u.length := by omega
    rw [List.append_assoc] at huv
    have hdrop := congrArg (List.drop p) huv
    rw [drop_append_le hup] at hdrop
    have hinf2 : genWhole kw₂ ws1₂ ws2₂ sec₂ sp₂ q₂ q₂' <:+: A.drop p := by
      refine ⟨u.drop p, v, ?_⟩
      rw [List.append_assoc]
      exact hdrop
    have hle := countP_le_of_infix isQuote hinf2
    rw [genWhole_quoteCount hp₂] at hle
    omega

/-- After its own pass, the generic detector no longer matches anywhere: every
produced region is either old text left of the leftmost match (match-free by
minimality), a quote-free redaction interior, a ≤1-quote keyword/separator
region, or recursively redacted text behind a closing quote. -/
theorem noMatch_gen_replaceAll : ∀ (n : Nat) (s : Str), s.length ≤ n →
    NoMatch genFind (replaceAll genFind s) := by
  intro n
  induction n with
  | zero =>
    intro s hs
    have hnil : s = [] := List.eq_nil_of_length_eq_zero (by omega)
    subst hnil
    have h0 : findLeftmost genFind ([] : Str) = none := by
      simp [findLeftmost, genFind_nil]
    rw [replaceAll_of_none h0]
    intro i
    rw [List.drop_nil]
    exact genFind_nil
  | succ n ih =>
    intro s hs
    cases hfl : findLeftmost genFind s with
    | none =>
      rw [replaceAll_of_none hfl]
      exact (findLeftmost_eq_none_iff _ _).mp hfl
    | some plr =>
      rcases plr with ⟨p, l, r⟩
      rcases findLeftmost_some _ hfl with ⟨hfp, hple, hbefore⟩
      rcases goodDetector_gen _ _ _ hfp with ⟨hl1, hl2⟩
      rcases genFind_decomp hfp with ⟨kw, ws1, ws2, sec, sp, q, q', rest, hsdp, _, hr, hp⟩
      have hp' := hp
      obtain ⟨hmem, hws1, hsep, hws2, hq, hsec, hslen, hq'⟩ := hp'
      rw [replaceAll_unfold goodDetector_gen hfl]
      have hih : NoMatch genFind (replaceAll genFind (s.drop (p + l))) := by
        refine ih (s.drop (p + l)) ?_
        simp only [List.length_drop] at hl2 ⊢
        omega
      set Z := replaceAll genFind (s.drop (p + l)) with hZdef
      have hplen : (s.take p).length = p := by
        simp only [List.length_take]
        omega
      have hnmB : NoMatch genFind ([q'] ++ Z) :=
        noMatch_gen_quote_pre
          (fun c hc => by rw [List.mem_singleton] at hc; rw [hc]; exact hq') hih
      intro i
      by_contra hne
      rcases Option.ne_none_iff_exists'.mp hne with ⟨⟨l₂, r₂⟩, hsome⟩
      rcases genFind_decomp hsome with ⟨kw₂, ws1₂, ws2₂, sec₂, sp₂, q₂, q₂', rest₂,
        hdz, _, _, hp₂⟩
      have hwinf : genWhole kw₂ ws1₂ ws2₂ sec₂ sp₂ q₂ q₂' <:+: s.take p ++ r ++ Z := by
        refine ⟨(s.take p ++ r ++ Z).take i, rest₂, ?_⟩
        conv_rhs => rw [← List.take_append_drop i (s.take p ++ r ++ Z), hdz]
        simp [List.append_assoc]
      rcases strReplace_kw (kw_len hmem).2 hslen with hSR | ⟨j, hkwsplit, hSR⟩
      · have hreq : r = kw ++ ((ws1 ++ [sp] ++ ws2 ++ [q]) ++ (redactedSecret ++ [q'])) := by
          rw [hr, strReplace_genWhole hp, hSR]
        have hza : s.take p ++ r ++ Z
            = ((s.take p ++ kw) ++ (ws1 ++ [sp] ++ ws2 ++ [q]))
              ++ redactedSecret ++ ([q'] ++ Z) := by
          rw [hreq]
          simp [List.append_assoc]
        rw [hza, redactedSecret_eq] at hwinf
        rcases infix_bracketed_split (genWhole_no_lbracket hp₂)
          (genWhole_no_rbracket hp₂) hwinf with hA | hM | hB
        · have hseq : s = ((s.take p ++ kw) ++ (ws1 ++ [sp] ++ ws2 ++ [q]))
              ++ (sec ++ ([q'] ++ rest)) := by
            conv_lhs => rw [← List.take_append_drop p s, hsdp]
            simp [genWhole, List.append_assoc]
          have hAdrop : ((s.take p ++ kw) ++ (ws1 ++ [sp] ++ ws2 ++ [q])).drop p
              = kw ++ (ws1 ++ [sp] ++ ws2 ++ [q]) := by
            rw [List.append_assoc]
            exact List.drop_left' hplen
          have hq1 : (((s.take p ++ kw) ++ (ws1 ++ [sp] ++ ws2 ++ [q])).drop p).countP
              isQuote ≤ 1 := by
            rw [hAdrop, List.countP_append,
              countP_quote_zero_of_subset_kw hmem (fun c hc => hc),
              countP_quote_mid hws1 hsep hws2 hq]
          exact gen_prefix_case hseq hq1 hbefore hp₂ hA
        · have hle := countP_le_of_infix isQuote hM
          rw [genWhole_quoteCount hp₂, redactedSecretMid_quoteCount] at hle
          omega
        · exact noMatch_gen_no_whole hnmB hp₂ hB
      · have hreq : r = (kw.take j ++ redactedSecret ++ kw.drop (j + sec.length))
            ++ ((ws1 ++ [sp] ++ ws2 ++ [q]) ++ (redactedSecret ++ [q'])) := by
          rw [hr, strReplace_genWhole hp, hSR]
        have hzb : s.take p ++ r ++ Z
            = (s.take p ++ kw.take j) ++ redactedSecret
              ++ ((kw.drop (j + sec.length) ++ (ws1 ++ [sp] ++ ws2 ++ [q]))
                ++ redactedSecret ++ ([q'] ++ Z)) := by
          rw [hreq]
          simp [List.append_assoc]
        rw [hzb, redactedSecret_eq] at hwinf
        rcases infix_bracketed_split (genWhole_no_lbracket hp₂)
          (genWhole_no_rbracket hp₂) hwinf with hA | hM | hB
        · have hseq : s = (s.take p ++ kw.take j)
              ++ (sec ++ (kw.drop (j + sec.length)
                ++ (ws1 ++ ([sp] ++ (ws2 ++ ([q] ++ (sec ++ ([q'] ++ rest)))))))) := by
            conv_lhs => rw [← List.take_append_drop p s, hsdp]
            simp only [genWhole]
            conv_lhs => rw [hkwsplit]
            simp [List.append_assoc]
          have hAdrop : (s.take p ++ kw.take j).drop p = kw.take j :=
            List.drop_left' hplen
          have hq1 : ((s.take p ++ kw.take j).drop p).countP isQuote ≤ 1 := by
            rw [hAdrop, countP_quote_zero_of_subset_kw hmem (List.take_subset j kw)]
            omega
          exact gen_prefix_case hseq hq1 hbefore hp₂ hA
        · have hle := countP_le_of_infix isQuote hM
          rw [genWhole_quoteCount hp₂, redactedSecretMid_quoteCount] at hle
          omega
        · rcases infix_bracketed_split (genWhole_no_lbracket hp₂)
            (genWhole_no_rbracket hp₂) hB with hA₂ | hM₂ | hB₂
          · have hle := countP_le_of_infix isQuote hA₂
            rw [genWhole_quoteCount hp₂, List.countP_append,
              countP_quote_zero_of_subset_kw hmem (List.drop_subset _ _),
              countP_quote_mid hws1 hsep hws2 hq] at hle
            omega
          · have hle := countP_le_of_infix isQuote hM₂
            rw [genWhole_quoteCount hp₂, redactedSecretMid_quoteCount] at hle
            omega
          · exact noMatch_gen_no_whole hnmB hp₂ hB₂

/-! ### Idempotence of the full scanner -/

/-- One guarded detector pass, as in `SecretScanner::scan`:
`if re.is_match(..) { re.replace_all(..) } else { unchanged }`. -/
def stage (f : Detector) (s : Str) : Str :=
  if isMatch f s then replaceAll f s else s

theorem scanChars_stages (s : Str) :
    scanChars s = stage awsFind (stage oaFind (stage genFind s)) := rfl

theorem stage_of_noMatch {f : Detector} {s : Str} (h : NoMatch f s) : stage f s = s := by
  rw [stage, isMatch_eq_false h]
  simp

theorem noMatch_stage_self {f : Detector}
    (hself : ∀ u : Str, NoMatch f (replaceAll f u)) (s : Str) :
    NoMatch f (stage f s) := by
  rw [stage]
  by_cases h : isMatch f s
  · rw [if_pos h]
    exact hself s
  · rw [if_neg h]
    rw [noMatch_iff_findLeftmost]
    unfold isMatch at h
    cases hf : findLeftmost f s with
    | none => rfl
    | some x =>
      rw [hf] at h
      simp at h

theorem noMatch_stage_pres {f g : Detector}
    (hpres : ∀ u : Str, NoMatch g u → NoMatch g (replaceAll f u)) {s : Str}
    (h : NoMatch g s) : NoMatch g (stage f s) := by
  rw [stage]
  by_cases hm : isMatch f s
  · rw [if_pos hm]
    exact hpres s h
  · rw [if_neg hm]
    exact h

/-- After a full `scanChars` pass, none of the three detectors matches anywhere
in the output. -/
theorem scanChars_noMatch (s : Str) :
    NoMatch genFind (scanChars s) ∧ NoMatch oaFind (scanChars s) ∧
      NoMatch awsFind (scanChars s) := by
  have hselfg : ∀ u : Str, NoMatch genFind (replaceAll genFind u) :=
    fun u => noMatch_gen_replaceAll u.length u (Nat.le_refl _)
  have hselfo : ∀ u : Str, NoMatch oaFind (replaceAll oaFind u) :=
    fun u => noMatch_oa_replaceAll u.length u (Nat.le_refl _)
  have hselfa : ∀ u : Str, NoMatch awsFind (replaceAll awsFind u) :=
    fun u => noMatch_aws_replaceAll u.length u (Nat.le_refl _)
  have hpgo : ∀ u : Str, NoMatch genFind u → NoMatch genFind (replaceAll oaFind u) :=
    fun u => noMatch_gen_preserved_oa u.length u (Nat.le_refl _)
  have hpga : ∀ u : Str, NoMatch genFind u → NoMatch genFind (replaceAll awsFind u) :=
    fun u => noMatch_gen_preserved_aws u.length u (Nat.le_refl _)
  have hpoa : ∀ u : Str, NoMatch oaFind u → NoMatch oaFind (replaceAll awsFind u) :=
    fun u => noMatch_oa_preserved_aws u.length u (Nat.le_refl _)
  rw [scanChars_stages]
  refine ⟨?_, ?_, ?_⟩
  · exact noMatch_stage_pres hpga (noMatch_stage_pres hpgo (noMatch_stage_self hselfg s))
  · exact noMatch_stage_pres hpoa (noMatch_stage_self hselfo (stage genFind s))
  · exact noMatch_stage_self hselfa (stage oaFind (stage genFind s))

/-- `scanChars` is idempotent. -/
theorem scanChars_idem (s : Str) : scanChars (scanChars s) = scanChars s := by
  obtain ⟨hg, ho, ha⟩ := scanChars_noMatch s
  rw [scanChars_stages (scanChars s), stage_of_noMatch hg, stage_of_noMatch ho,
    stage_of_noMatch ha]

/-- C2: applying `SecretScanner::scan` to text it has already sanitized returns
the identical text: after one pass none of the three detectors matches again,
so the second pass of the detector chain leaves every character unchanged. -/
theorem scan_idempotent (content : String) :
    SecretScanner.scan (SecretScanner.scan content) = SecretScanner.scan content := by
  show (⟨scanChars (scanChars content.data)⟩ : String) = ⟨scanChars content.data⟩
  rw [scanChars_idem]

/-! ### Evaluating the scanner on one whole generic match -/

theorem findLeftmost_cons_of_some {f : Detector} {c : Char} {cs : Str} {l : Nat} {r : Str}
    (h : f (c :: cs) = some (l, r)) : findLeftmost f (c :: cs) = some (0, l, r) := by
  simp only [findLeftmost, h]

theorem genFind_whole {kw ws1 ws2 sec : Str} {sp q q' : Char}
    (hp : GenPieces kw ws1 ws2 sec sp q q') :
    genFind (genWhole kw ws1 ws2 sec sp q q')
      = some ((genWhole kw ws1 ws2 sec sp q q').length,
          strReplace (genWhole kw ws1 ws2 sec sp q q') sec redactedSecret) := by
  have hrec := genericMatchAt_recon [] hp
  rw [List.append_nil] at hrec
  have hlen : (⟨kw.length, ws1.length, ws2.length, sec.length⟩ : GenMatch).len
      = (genWhole kw ws1 ws2 sec sp q q').length := by
    rw [genWhole_length]
    simp only [GenMatch.len, GenMatch.secStart]
  have hsplit : genWhole kw ws1 ws2 sec sp q q'
      = (kw ++ ws1 ++ [sp] ++ ws2 ++ [q]) ++ (sec ++ [q']) := by
    rw [genWhole]
    simp [List.append_assoc]
  have hpre_len : (kw ++ ws1 ++ [sp] ++ ws2 ++ [q]).length
      = (⟨kw.length, ws1.length, ws2.length, sec.length⟩ : GenMatch).secStart := by
    simp only [List.length_append, List.length_singleton, GenMatch.secStart]
  have hdrop : (genWhole kw ws1 ws2 sec sp q q').drop
        ((⟨kw.length, ws1.length, ws2.length, sec.length⟩ : GenMatch).secStart)
      = sec ++ [q'] := by
    conv_lhs => rw [hsplit]
    exact List.drop_left' hpre_len
  simp only [genFind, hrec, Option.map_some']
  rw [hlen, List.take_of_length_le (Nat.le_refl _), hdrop, List.take_left]

theorem findLeftmost_gen_whole {kw ws1 ws2 sec : Str} {sp q q' : Char}
    (hp : GenPieces kw ws1 ws2 sec sp q q') :
    findLeftmost genFind (genWhole kw ws1 ws2 sec sp q q')
      = some (0, (genWhole kw ws1 ws2 sec sp q q').length,
          strReplace (genWhole kw ws1 ws2 sec sp q q') sec redactedSecret) := by
  have hgf := genFind_whole hp
  cases hW : genWhole kw ws1 ws2 sec sp q q' with
  | nil =>
    have hL := congrArg List.length hW
    rw [genWhole_length] at hL
    simp only [List.length_nil] at hL
    omega
  | cons c cs =>
    rw [hW] at hgf
    exact findLeftmost_cons_of_some hgf

theorem replaceAll_gen_whole {kw ws1 ws2 sec : Str} {sp q q' : Char}
    (hp : GenPieces kw ws1 ws2 sec sp q q') :
    replaceAll genFind (genWhole kw ws1 ws2 sec sp q q')
      = strReplace (genWhole kw ws1 ws2 sec sp q q') sec redactedSecret := by
  rw [replaceAll_unfold goodDetector_gen (findLeftmost_gen_whole hp)]
  rw [List.take_zero, List.nil_append, Nat.zero_add, List.drop_length]
  rw [replaceAll_of_none (by simp [findLeftmost, genFind_nil])]
  rw [List.append_nil]

theorem stage_gen_whole {kw ws1 ws2 sec : Str} {sp q q' : Char}
    (hp : GenPieces kw ws1 ws2 sec sp q q') :
    stage genFind (genWhole kw ws1 ws2 sec sp q q')
      = strReplace (genWhole kw ws1 ws2 sec sp q q') sec redactedSecret := by
  rw [stage]
  have hm : isMatch genFind (genWhole kw ws1 ws2 sec sp q q') = true := by
    unfold isMatch
    rw [findLeftmost_gen_whole hp]
    rfl
  rw [if_pos hm]
  exact replaceAll_gen_whole hp

theorem strReplace_of_not_infix {kw sec : Str} (hne : sec ≠ [])
    (hninf : ¬ sec <:+: kw) : strReplace kw sec redactedSecret = kw := by
  apply strReplace_of_none
  cases hf : firstOccIdx sec kw with
  | none => rfl
  | some j =>
    rcases firstOccIdx_some hne hf with ⟨hocc, _, _⟩
    exact absurd (hocc.isInfix.trans (List.drop_suffix j kw).isInfix) hninf

/-- C6 (amended): the closure at scanner.rs:35-40 runs
`whole.replace(secret, "[REDACTED_SECRET]")`, replacing every occurrence of the
captured value inside the whole matched span.  When the value does not occur
inside the key name — e.g. `password = "<value>"` with a value that is not a
substring of `password` — only the quoted value changes: key, separator and
quotes survive verbatim.  (The original claim is false when the value also
occurs in the key; see the counterexample.) -/
theorem scan_replaces_only_value (sec : String)
    (hsec : ∀ c ∈ sec.data, isWordChar c = true) (hlen : 8 ≤ sec.data.length)
    (hninf : ¬ sec.data <:+: "password".data) :
    SecretScanner.scan ("password = \"" ++ sec ++ "\"")
      = "password = \"[REDACTED_SECRET]\"" := by
  have hp : GenPieces "password".data [' '] [' '] sec.data '=' '"' '"' :=
    ⟨by decide, by decide, by decide, by decide, by decide, hsec, hlen, by decide⟩
  have hne : sec.data ≠ [] := by
    intro e
    rw [e] at hlen
    simp at hlen
  have hin : ("password = \"" ++ sec ++ "\"").data
      = genWhole "password".data [' '] [' '] sec.data '=' '"' '"' := by
    show ("password = \"".data ++ sec.data) ++ "\"".data = _
    have hlit : ("password = \"".data : Str)
        = "password".data ++ [' '] ++ ['='] ++ [' '] ++ ['"'] := by decide
    have hlit2 : ("\"".data : Str) = ['"'] := by decide
    rw [hlit, hlit2]
    simp only [genWhole]
  have hstr : strReplace (genWhole "password".data [' '] [' '] sec.data '=' '"' '"')
        sec.data redactedSecret
      = "password = \"[REDACTED_SECRET]\"".data := by
    rw [strReplace_genWhole hp, strReplace_of_not_infix hne hninf]
    decide
  have hchars : scanChars (("password = \"" ++ sec ++ "\"").data)
      = "password = \"[REDACTED_SECRET]\"".data := by
    rw [hin, scanChars_stages, stage_gen_whole hp, hstr]
    have hno : NoMatch oaFind ("password = \"[REDACTED_SECRET]\"".data) :=
      noMatch_iff_findLeftmost.mpr (by decide)
    have hna : NoMatch awsFind ("password = \"[REDACTED_SECRET]\"".data) :=
      noMatch_iff_findLeftmost.mpr (by decide)
    rw [stage_of_noMatch hno, stage_of_noMatch hna]
  show (⟨scanChars (("password = \"" ++ sec ++ "\"").data)⟩ : String) = _
  rw [hchars]

/-- C6 witness: the spec's own example value `abcdef12`. -/
theorem scan_replaces_only_value_witness :
    (∀ c ∈ ("abcdef12" : String).data, isWordChar c = true) ∧
      8 ≤ ("abcdef12" : String).data.length ∧
      ¬ ("abcdef12" : String).data <:+: "password".data ∧
      SecretScanner.scan ("password = \"" ++ "abcdef12" ++ "\"")
        = "password = \"[REDACTED_SECRET]\"" :=
  ⟨by decide, by decide, by decide,
    scan_replaces_only_value "abcdef12" (by decide) (by decide) (by decide)⟩

/-- C6 counterexample: on `password = 'password'` the captured value equals the
key name, and `whole.replace` rewrites both, so characters outside the quoted
value change — refuting "the key name … and every other character of the line
are unchanged". -/
theorem scan_rewrites_key_counterexample :
    SecretScanner.scan "password = 'password'"
        = "[REDACTED_SECRET] = '[REDACTED_SECRET]'" ∧
      SecretScanner.scan "password = 'password'"
        ≠ "password = '[REDACTED_SECRET]'" := by
  constructor
  · decide
  · decide

/-! ## The scan pipeline (scanner.rs `scan`, main.rs `Args`)

External collaborators — the `ignore` walker, the `git` subprocess, the
`glob` pattern compiler, the `tiktoken` tokenizer and the manifest parsers
used by `scan_dependencies` — are modelled as an environment of oracles
(`Env`); the repository's own control flow over their answers is embedded
directly.  Paths are modelled at the `Path::components` level as lists of
component strings: `PathBuf` ordering, tree insertion and display all work
component-wise. -/

/-- Command-line arguments (main.rs 31-67). -/
structure Args where
  path : Option String
  copy : Bool
  format : String
  filter : Option String
  diff : Bool
  numbers : Bool
  output : Option String
  max_size : Nat
  interactive : Bool
deriving Repr, DecidableEq

/-- A path as its list of components. -/
abbrev FsPath := List String

/-- One regular file of the scanned filesystem: its path, its raw bytes (the
1 KB binary probe reads these) and its `read_to_string` answer (`none` =
open/decode failure). -/
structure VFile where
  path : FsPath
  bytes : List Nat
  text : Option String
deriving Repr, DecidableEq

/-- Outcome of the external `git diff --name-only HEAD` subprocess:
`Command::output()` itself failing, or a run with an exit status and stdout. -/
inductive GitOutcome where
  | execError
  | ran (success : Bool) (stdout : String)
deriving Repr, DecidableEq

/-- Oracles for everything outside the repository's own code. -/
structure Env where
  /-- What `ignore::WalkBuilder` (with the pruning closure of
  `get_walk_files`) yields for a root. -/
  walk : String → List FsPath
  /-- The one `git diff --name-only HEAD` invocation.  Its command line
  names no path — it runs against the process working directory — so the
  outcome is a single value, not a function of the scan root. -/
  git : GitOutcome
  /-- `glob::Pattern::new`: `none` models an invalid pattern (`Err`),
  `some m` the compiled matcher used as `Pattern::matches_path`. -/
  patternNew : String → Option (FsPath → Bool)
  /-- `tiktoken_rs` `cl100k_base`: `encode_with_special_tokens(s).len()`. -/
  tok : String → Nat
  /-- `scan_dependencies` (scanner.rs 147-194): reads the two root manifests
  and parses them with external toml/serde parsers; `none` = no block. -/
  scan_dependencies : String → Option String
  /-- The regular files currently on disk (answers `exists`/`is_file`,
  `File::open`, `read` and `read_to_string`). -/
  fs : List VFile

/-- The fatal errors of the scan (`anyhow` contexts / `bail!`). -/
inductive ScanError where
  | gitExec
  | gitFailed
  | invalidGlob
deriving Repr, DecidableEq

/-- The phases of `scan` in source order (scanner.rs 199-306): `discover` =
the `raw_files` strategy-selection statement ran, `filterCompile` = the
filter-compilation `match` ran, `process` = filtering, sorting and per-file
processing ran. -/
inductive Ev where
  | discover
  | filterCompile
  | process
deriving Repr, DecidableEq

/-- Split a character list at a separator (every occurrence). -/
def splitChar (sep : Char) : List Char → List (List Char)
  | [] => [[]]
  | c :: rest =>
    if c = sep then [] :: splitChar sep rest
    else
      match splitChar sep rest with
      | [] => [[c]]
      | l :: ls => (c :: l) :: ls

/-- `PathBuf::from` at component level. -/
def pathOfString (s : String) : FsPath :=
  (splitChar '/' s.data).map (fun l => String.mk l)

/-- The pieces produced by splitting at every `\n`: each piece except the
final one was terminated by a `\n`, so it loses the `\r` of a `\r\n`
sequence; the final, unterminated piece keeps every character (a lone
trailing `\r` included) and yields no line when empty. -/
def rustLinesParts : List (List Char) → List (List Char)
  | [] => []
  | [last] => if last = [] then [] else [last]
  | p :: rest =>
    (if p.getLast? = some '\r' then p.dropLast else p) :: rustLinesParts rest

/-- Rust `str::lines`: split at line endings, where an ending is `\n` or
`\r\n`; there is no trailing empty line, and a carriage return not
immediately followed by a line feed — e.g. a lone final `\r` — stays in its
line. -/
def rustLines (s : String) : List String :=
  (rustLinesParts (splitChar '\n' s.data)).map (fun l => String.mk l)

/-- Byte/code-point order on strings (Rust `str`/`OsStr` `Ord`; UTF-8 byte
order and code-point order agree). -/
def strLt : List Char → List Char → Bool
  | [], [] => false
  | [], _ :: _ => true
  | _ :: _, [] => false
  | a :: as, b :: bs => if a = b then strLt as bs else decide (a.toNat < b.toNat)

/-- `PathBuf`/`Path` order: lexicographic over components (`Path::cmp`). -/
def pathLe : FsPath → FsPath → Bool
  | [], _ => true
  | _ :: _, [] => false
  | a :: as, b :: bs => if a = b then pathLe as bs else strLt a.data b.data

/-- Stable insertion into a sorted list. -/
def orderedInsert (a : FsPath) : List FsPath → List FsPath
  | [] => [a]
  | b :: l => if pathLe a b then a :: b :: l else b :: orderedInsert a l

/-- `final_files.sort()`: `Vec::sort` is a stable sort by `Ord`, and every
stable sort of the same list under the same total order is extensionally the
same list, so stable insertion sort models it exactly. -/
def sortPaths : List FsPath → List FsPath
  | [] => []
  | a :: l => orderedInsert a (sortPaths l)

/-- `TreeNode { children: BTreeMap<String, TreeNode> }`; the ordered map is a
key-sorted association list. -/
inductive TreeNode where
  | mk (children : List (String × TreeNode))

/-- The children of a node. -/
def TreeNode.children : TreeNode → List (String × TreeNode)
  | .mk cs => cs

/-- `TreeNode::insert`: walk the components, `children.entry(name)
.or_insert_with(TreeNode::new)` at each level (keeping the map key-sorted).
Fuelled: one unit per component descent or sibling step. -/
def insertComps : Nat → List (String × TreeNode) → List String →
    List (String × TreeNode)
  | 0, cs, _ => cs
  | _ + 1, cs, [] => cs
  | fuel + 1, [], name :: rest =>
    [(name, TreeNode.mk (insertComps fuel [] rest))]
  | fuel + 1, (k, v) :: cs, name :: rest =>
    if strLt name.data k.data then
      (name, TreeNode.mk (insertComps fuel [] rest)) :: (k, v) :: cs
    else if name = k then
      (k, TreeNode.mk (insertComps fuel v.children rest)) :: cs
    else
      (k, v) :: insertComps fuel cs (name :: rest)

/-- `TreeNode::render`: each child with its connector (`└── ` for the last
sibling, `├── ` otherwise), the prefix extended by `    ` or `│   ` for the
recursive call; colorization of names is presentation and modelled as
identity.  Fuelled: one unit per descent or sibling step. -/
def renderChildren : Nat → String → List (String × TreeNode) → String
  | 0, _, _ => ""
  | _ + 1, _, [] => ""
  | fuel + 1, pre, [(name, node)] =>
    pre ++ "└── " ++ name ++ "\n" ++ renderChildren fuel (pre ++ "    ") node.children
  | fuel + 1, pre, (name, node) :: cs =>
    pre ++ "├── " ++ name ++ "\n" ++ renderChildren fuel (pre ++ "│   ") node.children
      ++ renderChildren fuel pre cs

/-- Fuel that over-covers every insertion and the rendering walk. -/
def treeFuel (files : List FsPath) : Nat :=
  (files.foldl (fun n p => n + p.length) 2) ^ 2

/-- `generate_tree_view` (scanner.rs 106-119): root label, newline, rendered
trie of the root-relative paths (`strip_prefix(root).unwrap_or(path)`). -/
def generate_tree_view (files : List FsPath) (root : String) : String :=
  let rootPath := pathOfString root
  let fuel := treeFuel files
  let tree_root := files.foldl
    (fun cs p =>
      insertComps fuel cs (if rootPath.isPrefixOf p then p.drop rootPath.length else p))
    ([] : List (String × TreeNode))
  root ++ "\n" ++ renderChildren fuel "" tree_root

/-- `File::open`-level view of the filesystem oracle. -/
def findFile (env : Env) (p : FsPath) : Option VFile :=
  env.fs.find? (fun f => f.path == p)

/-- `p.exists() && p.is_file()`. -/
def existsIsFile (env : Env) (p : FsPath) : Bool := (findFile env p).isSome

/-- `format!("{:>4} |", i + 1)`. -/
def lineNumPrefix (i : Nat) : String :=
  let s := toString (i + 1)
  (if s.length < 4 then (List.replicate (4 - s.length) ' ').asString ++ s else s) ++ " |"

/-- The line-indexing loop of `process_file` (scanner.rs 414-443): for each
`content.lines()` line, `format!("{} {}\n", line_num, line)` (the
`white().dimmed()` coloring is presentation, modelled as identity). -/
def numberLines (content : String) : String :=
  String.join ((rustLines content).enum.map
    (fun p => lineNumPrefix p.1 ++ " " ++ p.2 ++ "\n"))

/-- `process_file` (scanner.rs 387-446): open, 1024-byte probe with zero-byte
binary check, `read_to_string`, secret scan, optional line numbering, token
count. -/
def process_file (env : Env) (path : FsPath) (show_numbers : Bool) :
    Option (String × Nat) :=
  match findFile env path with
  | none => none
  | some file =>
    let buffer := file.bytes.take 1024
    if buffer.contains 0 then none
    else
      match file.text with
      | none => none
      | some content =>
        let content := SecretScanner.scan content
        let content := if show_numbers then numberLines content else content
        some (content, env.tok content)

/-- `get_git_files` (scanner.rs 330-350): run `git diff --name-only HEAD`
(no path argument — the parameter is unused), bail on failure, keep the
stdout lines that exist as regular files. -/
def get_git_files (env : Env) (_path : String) : Except ScanError (List FsPath) :=
  match env.git with
  | .execError => .error .gitExec
  | .ran success stdout =>
    if success then
      .ok (((rustLines stdout).map pathOfString).filter (fun p => existsIsFile env p))
    else .error .gitFailed

/-- `get_walk_files` (scanner.rs 352-384): the `ignore` walker with the
pruning closure, both external to this file's claims. -/
def get_walk_files (env : Env) (path : String) : List FsPath := env.walk path

/-- `Path::display` of a component path. -/
def pathDisplay : FsPath → String
  | [] => ""
  | [c] => c
  | c :: rest => c ++ "/" ++ pathDisplay rest

/-- One emitted file block (scanner.rs 253-280), markdown or xml shape;
colorization is presentation, modelled as identity. -/
def renderBlock (format : String) (path : FsPath) (text : String) (count : Nat) :
    String :=
  if format = "xml" then
    "<file path=\"" ++ pathDisplay path ++ "\" tokens=\"" ++ toString count
      ++ "\">\n" ++ text ++ "\n</file>\n"
  else
    "--- File: " ++ pathDisplay path ++ " (" ++ toString count ++ " tokens) ---"
      ++ "\n" ++ text ++ "\n\n"

/-- What the scan produces: the sorted filtered list, the per-file blocks
actually emitted, the assembled payload and the aggregate metrics. -/
structure ScanOut where
  finalFiles : List FsPath
  blocks : List (FsPath × String × Nat)
  output : String
  finalTokens : Nat
  chars : Nat
deriving Repr, DecidableEq

/-- The filter loop's keep-condition (scanner.rs 218-226): when a pattern was
compiled, `matches_path` decides; otherwise every path is kept. -/
def filterPred (filter_pattern : Option (FsPath → Bool)) (p : FsPath) : Bool :=
  match filter_pattern with
  | some pattern => pattern p
  | none => true

/-- The body of `scan` after discovery and filter compilation (scanner.rs
216-306): filter, sort, dependency context, tree view, per-file processing
(rayon's ordered `par_iter().map().collect()` = an in-order map), the
`zip`-assembled output, and the final whole-payload token count
`bpe.encode_with_special_tokens(&output).len()` plus `output.len()`. -/
def scanCore (env : Env) (path : String) (config : Args) (raw_files : List FsPath)
    (filter_pattern : Option (FsPath → Bool)) : ScanOut :=
  let final_files := raw_files.filter (filterPred filter_pattern)
  let final_files := sortPaths final_files
  let ctx := match env.scan_dependencies path with
    | some context_header => context_header ++ "\n"
    | none => ""
  let tree_view := generate_tree_view final_files path
  let pre := ctx ++ "PROJECT STRUCTURE:\n==================\n" ++ tree_view
    ++ "\n\nFILE CONTENTS:\n==================\n\n"
  let processed_results := final_files.map (fun p => process_file env p config.numbers)
  let blocks := (final_files.zip processed_results).filterMap
    (fun pr => pr.2.map (fun tc => (pr.1, tc)))
  let output := pre
    ++ String.join (blocks.map (fun b => renderBlock config.format b.1 b.2.1 b.2.2))
  ⟨final_files, blocks, output, env.tok output, output.utf8ByteSize⟩

/-- `scan` (scanner.rs 192-309): strategy selection (discovery), filter
compilation, then the core; paired with the trace of phases that ran, in
source order.  `config.max_size` is accepted by `Args` but never read. -/
def scan (env : Env) (path : String) (config : Args) :
    List Ev × Except ScanError ScanOut :=
  match (if config.diff then get_git_files env path
         else Except.ok (get_walk_files env path)) with
  | .error e => ([Ev.discover], .error e)
  | .ok raw_files =>
    match config.filter with
    | some p =>
      match env.patternNew p with
      | none => ([Ev.discover, Ev.filterCompile], .error .invalidGlob)
      | some pattern =>
        ([Ev.discover, Ev.filterCompile, Ev.process],
          .ok (scanCore env path config raw_files (some pattern)))
    | none =>
      ([Ev.discover, Ev.filterCompile, Ev.process],
        .ok (scanCore env path config raw_files none))

/-! ### The path order is total, transitive and antisymmetric -/

theorem char_toNat_inj {a b : Char} (h : a.toNat = b.toNat) : a = b := by
  apply Char.eq_of_val_eq
  apply UInt32.eq_of_val_eq
  apply Fin.ext
  simpa [Char.toNat, UInt32.toNat] using h

theorem strLt_irrefl : ∀ a : List Char, strLt a a = false := by
  intro a
  induction a with
  | nil => rfl
  | cons c cs ih =>
    rw [strLt, if_pos rfl]
    exact ih

theorem strLt_trans : ∀ a b c : List Char,
    strLt a b = true → strLt b c = true → strLt a c = true := by
  intro a
  induction a with
  | nil =>
    intro b c hab hbc
    cases b with
    | nil => simp [strLt] at hab
    | cons y ys =>
      cases c with
      | nil => simp [strLt] at hbc
      | cons z zs => rfl
  | cons x xs ih =>
    intro b c hab hbc
    cases b with
    | nil => simp [strLt] at hab
    | cons y ys =>
      cases c with
      | nil => simp [strLt] at hbc
      | cons z zs =>
        rw [strLt] at hab hbc ⊢
        by_cases hxy : x = y
        · subst hxy
          rw [if_pos rfl] at hab
          by_cases hxz : x = z
          · subst hxz
            rw [if_pos rfl] at hbc
            rw [if_pos rfl]
            exact ih ys zs hab hbc
          · rw [if_neg hxz] at hbc
            rw [if_neg hxz]
            exact hbc
        · rw [if_neg hxy] at hab
          by_cases hyz : y = z
          · subst hyz
            rw [if_neg hxy]
            exact hab
          · rw [if_neg hyz] at hbc
            rw [decide_eq_true_eq] at hab hbc
            by_cases hxz : x = z
            · subst hxz
              omega
            · rw [if_neg hxz, decide_eq_true_eq]
              omega

theorem strLt_total_ne : ∀ a b : List Char,
    a ≠ b → strLt a b = true ∨ strLt b a = true := by
  intro a
  induction a with
  | nil =>
    intro b hne
    cases b with
    | nil => exact absurd rfl hne
    | cons y ys => exact Or.inl rfl
  | cons x xs ih =>
    intro b hne
    cases b with
    | nil => exact Or.inr rfl
    | cons y ys =>
      rw [strLt, strLt]
      by_cases hxy : x = y
      · subst hxy
        rw [if_pos rfl, if_pos rfl]
        exact ih ys (fun h => hne (by rw [h]))
      · rw [if_neg hxy, if_neg (fun h => hxy h.symm)]
        rw [decide_eq_true_eq, decide_eq_true_eq]
        have hnn : x.toNat ≠ y.toNat := fun h => hxy (char_toNat_inj h)
        omega

theorem strLt_asymm {a b : List Char} (h1 : strLt a b = true)
    (h2 : strLt b a = true) : False := by
  have := strLt_trans a b a h1 h2
  rw [strLt_irrefl] at this
  exact absurd this (by decide)

theorem string_eq_of_data {a b : String} (h : a.data = b.data) : a = b :=
  String.ext h

theorem pathLe_refl : ∀ a : FsPath, pathLe a a = true := by
  intro a
  induction a with
  | nil => rfl
  | cons x xs ih =>
    rw [pathLe, if_pos rfl]
    exact ih

theorem pathLe_trans : ∀ a b c : FsPath,
    pathLe a b = true → pathLe b c = true → pathLe a c = true := by
  intro a
  induction a with
  | nil => intro b c _ _; rfl
  | cons x xs ih =>
    intro b c hab hbc
    cases b with
    | nil => simp [pathLe] at hab
    | cons y ys =>
      cases c with
      | nil => simp [pathLe] at hbc
      | cons z zs =>
        rw [pathLe] at hab hbc ⊢
        by_cases hxy : x = y
        · subst hxy
          rw [if_pos rfl] at hab
          by_cases hxz : x = z
          · subst hxz
            rw [if_pos rfl] at hbc
            rw [if_pos rfl]
            exact ih ys zs hab hbc
          · rw [if_neg hxz] at hbc
            rw [if_neg hxz]
            exact hbc
        · rw [if_neg hxy] at hab
          by_cases hyz : y = z
          · subst hyz
            rw [if_neg hxy]
            exact hab
          · rw [if_neg hyz] at hbc
            by_cases hxz : x = z
            · subst hxz
              exact (strLt_asymm hab hbc).elim
            · rw [if_neg hxz]
              exact strLt_trans x.data y.data z.data hab hbc

theorem pathLe_total : ∀ a b : FsPath, pathLe a b = true ∨ pathLe b a = true := by
  intro a
  induction a with
  | nil => intro b; exact Or.inl rfl
  | cons x xs ih =>
    intro b
    cases b with
    | nil => exact Or.inr rfl
    | cons y ys =>
      rw [pathLe, pathLe]
      by_cases hxy : x = y
      · subst hxy
        rw [if_pos rfl, if_pos rfl]
        exact ih ys
      · rw [if_neg hxy, if_neg (fun h => hxy h.symm)]
        have hd : x.data ≠ y.data := fun h => hxy (string_eq_of_data h)
        exact strLt_total_ne x.data y.data hd

/-! ### `Vec::sort` via stable insertion -/

theorem orderedInsert_perm (a : FsPath) : ∀ l, (orderedInsert a l).Perm (a :: l) := by
  intro l
  induction l with
  | nil => exact List.Perm.refl _
  | cons b l ih =>
    rw [orderedInsert]
    by_cases h : pathLe a b = true
    · rw [if_pos h]
    · rw [if_neg h]
      exact (ih.cons b).trans (List.Perm.swap a b l)

theorem orderedInsert_sorted (a : FsPath) :
    ∀ {l}, List.Pairwise (fun x y => pathLe x y = true) l →
      List.Pairwise (fun x y => pathLe x y = true) (orderedInsert a l) := by
  intro l
  induction l with
  | nil => intro _; exact List.pairwise_singleton _ _
  | cons b l ih =>
    intro h
    rcases List.pairwise_cons.mp h with ⟨hb, hl⟩
    rw [orderedInsert]
    by_cases hab : pathLe a b = true
    · rw [if_pos hab]
      refine List.pairwise_cons.mpr ⟨?_, h⟩
      intro x hx
      rcases List.mem_cons.mp hx with rfl | hx
      · exact hab
      · exact pathLe_trans a b x hab (hb x hx)
    · rw [if_neg hab]
      refine List.pairwise_cons.mpr ⟨?_, ih hl⟩
      intro x hx
      rcases List.mem_cons.mp ((orderedInsert_perm a l).mem_iff.mp hx) with rfl | hx
      · rcases pathLe_total b x with h' | h'
        · exact h'
        · exact absurd h' hab
      · exact hb x hx

theorem sortPaths_perm : ∀ l, (sortPaths l).Perm l := by
  intro l
  induction l with
  | nil => exact List.Perm.refl _
  | cons a l ih =>
    rw [sortPaths]
    exact (orderedInsert_perm a (sortPaths l)).trans (ih.cons a)

theorem sortPaths_sorted : ∀ l, List.Pairwise (fun x y => pathLe x y = true) (sortPaths l) := by
  intro l
  induction l with
  | nil => exact List.Pairwise.nil
  | cons a l ih =>
    rw [sortPaths]
    exact orderedInsert_sorted a ih

/-! ### What the emitted blocks are -/

theorem zip_map_snd {α β : Type} (g : α → β) :
    ∀ (l : List α) (x : α × β), x ∈ l.zip (l.map g) → x.2 = g x.1 := by
  intro l
  induction l with
  | nil => intro x hx; simp at hx
  | cons a l ih =>
    intro x hx
    rw [List.map_cons, List.zip_cons_cons] at hx
    rcases List.mem_cons.mp hx with rfl | hx
    · rfl
    · exact ih x hx

theorem mem_filterMap_zip {α β : Type} (g : α → Option β) (l : List α) {p : α} {b : β}
    (h : (p, b) ∈ (l.zip (l.map g)).filterMap
      (fun pr => pr.2.map (fun t => (pr.1, t)))) :
    p ∈ l ∧ g p = some b := by
  rcases List.mem_filterMap.mp h with ⟨⟨q, r⟩, hqr, heq⟩
  have hr : r = g q := zip_map_snd g l _ hqr
  cases r with
  | none => simp at heq
  | some t =>
    simp only [Option.map_some'] at heq
    injection heq with heq'
    cases heq'
    exact ⟨(List.of_mem_zip hqr).1, hr.symm⟩

theorem filterMap_zip_fst_sublist {α β : Type} (g : α → Option β) :
    ∀ l : List α,
      (((l.zip (l.map g)).filterMap (fun pr => pr.2.map (fun t => (pr.1, t)))).map
        Prod.fst).Sublist l := by
  intro l
  induction l with
  | nil => simp
  | cons a l ih =>
    rw [List.map_cons, List.zip_cons_cons, List.filterMap_cons]
    cases hg : g a with
    | none =>
      simp only [Option.map_none']
      exact ih.cons a
    | some b =>
      simp only [Option.map_some']
      rw [List.map_cons]
      exact ih.cons₂ a

theorem scanCore_finalFiles (env : Env) (path : String) (config : Args)
    (raw_files : List FsPath) (filter_pattern : Option (FsPath → Bool)) :
    (scanCore env path config raw_files filter_pattern).finalFiles
      = sortPaths (raw_files.filter (filterPred filter_pattern)) := rfl

theorem scanCore_blocks (env : Env) (path : String) (config : Args)
    (raw_files : List FsPath) (filter_pattern : Option (FsPath → Bool)) :
    ∀ b ∈ (scanCore env path config raw_files filter_pattern).blocks,
      b.1 ∈ (scanCore env path config raw_files filter_pattern).finalFiles ∧
      process_file env b.1 config.numbers = some (b.2.1, b.2.2) := by
  intro b hb
  have hb' : (b.1, b.2) ∈ ((scanCore env path config raw_files
      filter_pattern).finalFiles.zip ((scanCore env path config raw_files
        filter_pattern).finalFiles.map (fun p => process_file env p config.numbers))).filterMap
      (fun pr => pr.2.map (fun t => (pr.1, t))) := hb
  have h := mem_filterMap_zip (fun p => process_file env p config.numbers) _ hb'
  exact ⟨h.1, h.2⟩

theorem scanCore_blocks_fst_sublist (env : Env) (path : String) (config : Args)
    (raw_files : List FsPath) (filter_pattern : Option (FsPath → Bool)) :
    ((scanCore env path config raw_files filter_pattern).blocks.map Prod.fst).Sublist
      (scanCore env path config raw_files filter_pattern).finalFiles :=
  filterMap_zip_fst_sublist (fun p => process_file env p config.numbers) _

/-- `scan` when discovery itself fails. -/
theorem scan_eq_of_raw_error {env : Env} {path : String} {config : Args}
    {e : ScanError}
    (h : (if config.diff then get_git_files env path
          else Except.ok (get_walk_files env path)) = Except.error e) :
    scan env path config = ([Ev.discover], Except.error e) := by
  unfold scan
  rw [h]

/-- `scan` with no filter configured. -/
theorem scan_eq_of_no_filter {env : Env} {path : String} {config : Args}
    {raw : List FsPath}
    (h : (if config.diff then get_git_files env path
          else Except.ok (get_walk_files env path)) = Except.ok raw)
    (hf : config.filter = none) :
    scan env path config = ([Ev.discover, Ev.filterCompile, Ev.process],
      Except.ok (scanCore env path config raw none)) := by
  unfold scan
  rw [h, hf]

/-- `scan` with an invalid filter pattern. -/
theorem scan_eq_of_invalid_filter {env : Env} {path : String} {config : Args}
    {raw : List FsPath} {p : String}
    (h : (if config.diff then get_git_files env path
          else Except.ok (get_walk_files env path)) = Except.ok raw)
    (hf : config.filter = some p) (hpat : env.patternNew p = none) :
    scan env path config
      = ([Ev.discover, Ev.filterCompile], Except.error ScanError.invalidGlob) := by
  unfold scan
  rw [h, hf]
  simp only [hpat]

/-- `scan` with a valid filter pattern. -/
theorem scan_eq_of_valid_filter {env : Env} {path : String} {config : Args}
    {raw : List FsPath} {p : String} {pattern : FsPath → Bool}
    (h : (if config.diff then get_git_files env path
          else Except.ok (get_walk_files env path)) = Except.ok raw)
    (hf : config.filter = some p) (hpat : env.patternNew p = some pattern) :
    scan env path config = ([Ev.discover, Ev.filterCompile, Ev.process],
      Except.ok (scanCore env path config raw (some pattern))) := by
  unfold scan
  rw [h, hf]
  simp only [hpat]

/-- Inversion of a successful `scan`. -/
theorem scan_ok_inv {env : Env} {path : String} {config : Args} {tr : List Ev}
    {out : ScanOut} (h : scan env path config = (tr, Except.ok out)) :
    ∃ raw, (if config.diff then get_git_files env path
            else Except.ok (get_walk_files env path)) = Except.ok raw ∧
      tr = [Ev.discover, Ev.filterCompile, Ev.process] ∧
      ((config.filter = none ∧ out = scanCore env path config raw none) ∨
       (∃ p pattern, config.filter = some p ∧ env.patternNew p = some pattern ∧
          out = scanCore env path config raw (some pattern))) := by
  rcases hraw : (if config.diff then get_git_files env path
      else Except.ok (get_walk_files env path)) with e | raw
  · rw [scan_eq_of_raw_error hraw] at h
    injection h with h1 h2
    cases h2
  · refine ⟨raw, rfl, ?_⟩
    cases hf : config.filter with
    | none =>
      rw [scan_eq_of_no_filter hraw hf] at h
      injection h with h1 h2
      injection h2 with h3
      exact ⟨h1.symm, Or.inl ⟨rfl, h3.symm⟩⟩
    | some p =>
      cases hpat : env.patternNew p with
      | none =>
        rw [scan_eq_of_invalid_filter hraw hf hpat] at h
        injection h with h1 h2
        cases h2
      | some pattern =>
        rw [scan_eq_of_valid_filter hraw hf hpat] at h
        injection h with h1 h2
        injection h2 with h3
        exact ⟨h1.symm, Or.inr ⟨p, pattern, rfl, hpat, h3.symm⟩⟩

/-- After one full `SecretScanner::scan` on match-free text, nothing changes. -/
theorem scan_of_noMatch {content : String} (hg : NoMatch genFind content.data)
    (ho : NoMatch oaFind content.data) (ha : NoMatch awsFind content.data) :
    SecretScanner.scan content = content := by
  show (⟨scanChars content.data⟩ : String) = content
  rw [scanChars_stages, stage_of_noMatch hg, stage_of_noMatch ho, stage_of_noMatch ha]

/-- Evaluation of `process_file` on a readable, non-binary file. -/
theorem process_file_eq_of_text (env : Env) {p : FsPath} {f : VFile} {content : String}
    (hfind : findFile env p = some f)
    (hbin : (f.bytes.take 1024).contains 0 = false)
    (htext : f.text = some content) (show_numbers : Bool) :
    process_file env p show_numbers
      = some (if show_numbers then numberLines (SecretScanner.scan content)
              else SecretScanner.scan content,
          env.tok (if show_numbers then numberLines (SecretScanner.scan content)
              else SecretScanner.scan content)) := by
  unfold process_file
  rw [hfind]
  simp only [hbin, htext, Bool.false_eq_true, if_false]

/-- The scanCore-level facts behind C4: blocks come from the discovered set,
pass the glob, and stand in strictly ascending path order. -/
theorem scanCore_props (env : Env) (path : String) (config : Args)
    (raw : List FsPath) (fp : Option (FsPath → Bool)) (hnd : raw.Nodup) :
    (∀ b ∈ (scanCore env path config raw fp).blocks, b.1 ∈ raw) ∧
    (∀ pattern, fp = some pattern →
      ∀ b ∈ (scanCore env path config raw fp).blocks, pattern b.1 = true) ∧
    List.Pairwise (fun x y => pathLe x y = true ∧ x ≠ y)
      ((scanCore env path config raw fp).blocks.map Prod.fst) := by
  have hmemf : ∀ b ∈ (scanCore env path config raw fp).blocks,
      b.1 ∈ raw.filter (filterPred fp) := by
    intro b hb
    have h1 := (scanCore_blocks env path config raw fp b hb).1
    rw [scanCore_finalFiles] at h1
    exact (sortPaths_perm _).mem_iff.mp h1
  refine ⟨?_, ?_, ?_⟩
  · intro b hb
    exact (List.mem_filter.mp (hmemf b hb)).1
  · intro pattern hfp b hb
    have h2 := (List.mem_filter.mp (hmemf b hb)).2
    rw [hfp] at h2
    exact h2
  · have hsorted := sortPaths_sorted (raw.filter (filterPred fp))
    have hnodup : (sortPaths (raw.filter (filterPred fp))).Nodup :=
      (sortPaths_perm _).symm.nodup (hnd.filter _)
    have hstrict := hsorted.and hnodup
    have hsub := scanCore_blocks_fst_sublist env path config raw fp
    rw [scanCore_finalFiles] at hsub
    exact List.Pairwise.sublist hsub hstrict

/-! ### Concrete environments for witnesses and counterexamples -/

/-- The glob matcher of the witness environment. -/
def matcherW : FsPath → Bool := fun p => decide (p ≠ ["skip.md"])

/-- A small filesystem with three files, a walker that enumerates them, a
git answer naming one existing and one deleted file, and a compiler that
accepts exactly the pattern string `*.txt`. -/
def envW : Env :=
  ⟨fun _ => [["b.txt"], ["a.txt"], ["skip.md"]],
   GitOutcome.ran true "a.txt\nmissing.txt\n",
   fun s => if s = "*.txt" then some matcherW else none,
   String.length,
   fun _ => none,
   [⟨["a.txt"], [104, 105], some "hi"⟩,
    ⟨["b.txt"], [104], some "h"⟩,
    ⟨["skip.md"], [104], some "h"⟩]⟩

/-- Full-walk scan with the `*.txt` filter. -/
def cfgW : Args :=
  ⟨some ".", false, "markdown", some "*.txt", false, false, none, 100000, false⟩

/-- The same scan with the invalid pattern string `[`. -/
def cfgBad : Args :=
  ⟨some ".", false, "markdown", some "[", false, false, none, 100000, false⟩

/-- Git-diff mode, no filter. -/
def cfgDiff : Args :=
  ⟨none, false, "markdown", none, true, false, none, 100000, false⟩

/-- What `envW`'s walker discovers. -/
def rawW : List FsPath := [["b.txt"], ["a.txt"], ["skip.md"]]

/-- The successful scan output over `envW` with the `*.txt` filter. -/
def outW : ScanOut := scanCore envW "." cfgW rawW (some matcherW)

/-- An environment whose only file weighs 5 bytes — above the configured
3-byte bound of `cfgTiny`. -/
def bigFile : VFile := ⟨["big.txt"], [104, 104, 104, 104, 104], some "hhhhh"⟩

def envBig : Env :=
  ⟨fun _ => [["big.txt"]],
   GitOutcome.ran true "",
   fun _ => none,
   String.length,
   fun _ => none,
   [bigFile]⟩

/-- A scan configured with `max_size = 3`. -/
def cfgTiny : Args :=
  ⟨some ".", false, "markdown", none, false, false, none, 3, false⟩

/-- A one-byte text file and a probe-binary file. -/
def fileA : VFile := ⟨["a.txt"], [97], some "a"⟩

def fileBin : VFile := ⟨["bin.dat"], [0, 1], some "x"⟩

/-- Two tiny files, one beginning with a zero byte. -/
def envP : Env :=
  ⟨fun _ => [["a.txt"], ["bin.dat"]],
   GitOutcome.ran true "",
   fun _ => none,
   String.length,
   fun _ => none,
   [fileA, fileBin]⟩

/-- Plain markdown scan without numbering. -/
def cfgPlain : Args :=
  ⟨some ".", false, "markdown", none, false, false, none, 100000, false⟩

/-! ### C1, C3, C4, C5, C7, C8, C9, C10 -/

set_option maxRecDepth 4000 in
/-- C1 (code bug): `Args::max_size` (main.rs 60-62) is parsed but never read
by the scanner — the whole scan result is invariant under it, and a concrete
run with `max_size = 3` still emits the block of a 5-byte file, so
oversized files are not excluded at discovery/filter time (or anywhere). -/
theorem scan_ignores_max_size :
    (∀ (env : Env) (path : String) (config : Args) (m : Nat),
      scan env path { config with max_size := m } = scan env path config) ∧
    (∃ f out, f ∈ envBig.fs ∧ (scan envBig "." cfgTiny).2 = Except.ok out ∧
      cfgTiny.max_size < f.bytes.length ∧ f.path ∈ out.blocks.map Prod.fst) := by
  constructor
  · intro env path config m
    cases config
    rfl
  · refine ⟨bigFile, scanCore envBig "." cfgTiny [["big.txt"]] none,
      by decide, rfl, by decide, ?_⟩
    decide

/-- C3 (amended): an invalid glob pattern makes the whole scan abort with the
fatal `Invalid glob pattern` error before any filtering or per-file
processing — but only after discovery: the filter is compiled at scanner.rs
208-214, after the `raw_files` strategy selection at 200-205, so the trace of
the failing run is discovery followed by filter compilation. -/
theorem invalid_glob_aborts_after_discovery (env : Env) (path : String)
    (config : Args) (p : String) (raw : List FsPath)
    (hraw : (if config.diff then get_git_files env path
             else Except.ok (get_walk_files env path)) = Except.ok raw)
    (hf : config.filter = some p) (hpat : env.patternNew p = none) :
    scan env path config
      = ([Ev.discover, Ev.filterCompile], Except.error ScanError.invalidGlob) ∧
    Ev.process ∉ (scan env path config).1 := by
  have h := scan_eq_of_invalid_filter hraw hf hpat
  refine ⟨h, ?_⟩
  rw [h]
  decide

/-- C3 witness: a concrete failing run with the invalid pattern `[`. -/
theorem invalid_glob_aborts_after_discovery_witness :
    ((if cfgBad.diff then get_git_files envW "."
      else Except.ok (get_walk_files envW ".")) = Except.ok rawW) ∧
    cfgBad.filter = some "[" ∧ envW.patternNew "[" = none ∧
    (scan envW "." cfgBad
        = ([Ev.discover, Ev.filterCompile], Except.error ScanError.invalidGlob) ∧
      Ev.process ∉ (scan envW "." cfgBad).1) :=
  ⟨rfl, rfl, rfl,
    invalid_glob_aborts_after_discovery envW "." cfgBad "[" rawW rfl rfl rfl⟩

/-- C3 counterexample to "raised before any discovery work is performed": in
the failing run the trace's first phase is discovery — the walker has already
enumerated its three files — and the fatal error follows it. -/
theorem invalid_glob_before_discovery_counterexample :
    scan envW "." cfgBad
        = ([Ev.discover, Ev.filterCompile], Except.error ScanError.invalidGlob) ∧
      (scan envW "." cfgBad).1.head? = some Ev.discover ∧
      get_walk_files envW "." = [["b.txt"], ["a.txt"], ["skip.md"]] :=
  ⟨rfl, rfl, rfl⟩

/-- C4: every block of a successful scan names a discovered file, matches the
compiled glob when one was configured, and the blocks stand in strictly
ascending `PathBuf` order (given the data-model invariant that discovery
yields no duplicate entry); order comes from the post-filter sort, not from
completion order. -/
theorem scan_blocks_sorted_filtered (env : Env) (path : String) (config : Args)
    {tr : List Ev} {out : ScanOut} {raw : List FsPath}
    (hraw : (if config.diff then get_git_files env path
             else Except.ok (get_walk_files env path)) = Except.ok raw)
    (hscan : scan env path config = (tr, Except.ok out))
    (hnd : raw.Nodup) :
    (∀ b ∈ out.blocks, b.1 ∈ raw) ∧
    (∀ pstr pattern, config.filter = some pstr →
      env.patternNew pstr = some pattern → ∀ b ∈ out.blocks, pattern b.1 = true) ∧
    List.Pairwise (fun x y => pathLe x y = true ∧ x ≠ y)
      (out.blocks.map Prod.fst) := by
  rcases scan_ok_inv hscan with ⟨raw', hraw', _, hcase⟩
  have hrr : raw' = raw := by
    rw [hraw] at hraw'
    injection hraw' with h
    exact h.symm
  subst hrr
  rcases hcase with ⟨hfn, hout⟩ | ⟨q, pattern, hfq, hpat, hout⟩
  · subst hout
    rcases scanCore_props env path config raw' none hnd with ⟨h1, _, h3⟩
    refine ⟨h1, ?_, h3⟩
    intro pstr pat hps
    rw [hfn] at hps
    cases hps
  · subst hout
    rcases scanCore_props env path config raw' (some pattern) hnd with ⟨h1, h2, h3⟩
    refine ⟨h1, ?_, h3⟩
    intro pstr pat hps hpat'
    rw [hfq] at hps
    injection hps with hq
    rw [← hq] at hpat'
    rw [hpat]  at hpat'
    injection hpat' with hp
    rw [← hp]
    exact h2 pattern rfl

/-- C4 witness: the `*.txt`-filtered scan over `envW`. -/
theorem scan_blocks_sorted_filtered_witness :
    ((if cfgW.diff then get_git_files envW "."
      else Except.ok (get_walk_files envW ".")) = Except.ok rawW) ∧
    scan envW "." cfgW
      = ([Ev.discover, Ev.filterCompile, Ev.process], Except.ok outW) ∧
    rawW.Nodup ∧
    ((∀ b ∈ outW.blocks, b.1 ∈ rawW) ∧
     (∀ pstr pattern, cfgW.filter = some pstr →
        envW.patternNew pstr = some pattern → ∀ b ∈ outW.blocks, pattern b.1 = true) ∧
     List.Pairwise (fun x y => pathLe x y = true ∧ x ≠ y)
        (outW.blocks.map Prod.fst)) :=
  ⟨rfl, rfl, by decide,
    scan_blocks_sorted_filtered envW "." cfgW rfl rfl (by decide)⟩

set_option maxRecDepth 4000 in
/-- C5: for every successful scan the reported aggregate token count is the
tokenizer applied to the whole assembled payload, and the character count is
the payload's byte length; a concrete run (whose tokenizer is a plain length)
shows this differs from the sum of the per-file counts. -/
theorem final_tokens_over_whole_payload :
    (∀ (env : Env) (path : String) (config : Args) (tr : List Ev) (out : ScanOut),
      scan env path config = (tr, Except.ok out) →
      out.finalTokens = env.tok out.output ∧ out.chars = out.output.utf8ByteSize) ∧
    (∃ out, (scan envP "." cfgPlain).2 = Except.ok out ∧
      out.finalTokens ≠ (out.blocks.map (fun b => b.2.2)).sum) := by
  constructor
  · intro env path config tr out hscan
    rcases scan_ok_inv hscan with ⟨raw, _, _, hcase⟩
    rcases hcase with ⟨_, hout⟩ | ⟨q, pattern, _, _, hout⟩
    · subst hout
      exact ⟨rfl, rfl⟩
    · subst hout
      exact ⟨rfl, rfl⟩
  · refine ⟨scanCore envP "." cfgPlain [["a.txt"], ["bin.dat"]] none, rfl, ?_⟩
    decide

/-- C5 witness: the first conjunct applied to the concrete run over `envP`. -/
theorem final_tokens_over_whole_payload_witness :
    scan envP "." cfgPlain = ([Ev.discover, Ev.filterCompile, Ev.process],
      Except.ok (scanCore envP "." cfgPlain [["a.txt"], ["bin.dat"]] none)) ∧
    ((scanCore envP "." cfgPlain [["a.txt"], ["bin.dat"]] none).finalTokens
        = envP.tok (scanCore envP "." cfgPlain [["a.txt"], ["bin.dat"]] none).output ∧
      (scanCore envP "." cfgPlain [["a.txt"], ["bin.dat"]] none).chars
        = (scanCore envP "." cfgPlain [["a.txt"], ["bin.dat"]] none).output.utf8ByteSize) :=
  ⟨rfl, final_tokens_over_whole_payload.1 envP "." cfgPlain _ _ rfl⟩

/-- C7 (amended): a readable, non-binary file none of whose text any detector
matches is reproduced byte-for-byte when line numbering is off; with
numbering on it becomes `numberLines` of the content — every `lines()` line
prefixed with the fixed-width number and ` | `, each line (the last included)
terminated by `\n`, `\r\n` breaks normalized to `\n` while a carriage return
not followed by a line feed stays in its line — so the bytes are not
preserved in general (see the counterexample). -/
theorem no_secret_file_reproduced (env : Env) (p : FsPath) (f : VFile)
    (content : String) (hfind : findFile env p = some f)
    (hbin : (f.bytes.take 1024).contains 0 = false)
    (htext : f.text = some content)
    (hg : NoMatch genFind content.data) (ho : NoMatch oaFind content.data)
    (ha : NoMatch awsFind content.data) :
    process_file env p false = some (content, env.tok content) ∧
    process_file env p true
      = some (numberLines content, env.tok (numberLines content)) := by
  have hscan := scan_of_noMatch hg ho ha
  constructor
  · rw [process_file_eq_of_text env hfind hbin htext false, hscan]
    rfl
  · rw [process_file_eq_of_text env hfind hbin htext true, hscan]
    rfl

/-- C7 witness: the one-byte file `a` of `envP`. -/
theorem no_secret_file_reproduced_witness :
    findFile envP ["a.txt"] = some fileA ∧
    (process_file envP ["a.txt"] false = some ("a", envP.tok "a") ∧
     process_file envP ["a.txt"] true
        = some (numberLines "a", envP.tok (numberLines "a"))) :=
  ⟨by decide,
    no_secret_file_reproduced envP ["a.txt"] fileA "a" (by decide) (by decide) rfl
      (noMatch_iff_findLeftmost.mpr (by decide))
      (noMatch_iff_findLeftmost.mpr (by decide))
      (noMatch_iff_findLeftmost.mpr (by decide))⟩

/-- C7 counterexample: numbering appends a byte that belongs to no line
prefix — content `a` (no trailing newline) becomes `   1 | a\n`, whose last
byte is `\n` although the content's last byte is `a`; and a `\r\n` break is
rewritten to `\n` (while a lone final `\r`, which `lines()` keeps in its
line, survives).  So the payload is not the original bytes plus per-line
prefixes. -/
theorem numbering_modifies_counterexample :
    process_file envP ["a.txt"] true = some ("   1 | a\n", 9) ∧
    ("   1 | a\n" : String).data.getLast? = some '\n' ∧
    ("a" : String).data.getLast? = some 'a' ∧
    numberLines "a\r\nb" = "   1 | a\n   2 | b\n" ∧
    numberLines "a\r" = "   1 | a\r\n" := by
  refine ⟨by decide, by decide, by decide, by decide, by decide⟩

/-- C8: a zero byte among the first 1024 probe bytes makes `process_file`
return `None` whatever the numbering flag, and no block of any successful
scan over that filesystem carries the file's path. -/
theorem binary_file_never_output (env : Env) (p : FsPath) (f : VFile)
    (hfind : findFile env p = some f)
    (hz : (f.bytes.take 1024).contains 0 = true) :
    (∀ n : Bool, process_file env p n = none) ∧
    (∀ (path : String) (config : Args) (tr : List Ev) (out : ScanOut),
      scan env path config = (tr, Except.ok out) → ∀ b ∈ out.blocks, b.1 ≠ p) := by
  have h1 : ∀ n : Bool, process_file env p n = none := by
    intro n
    unfold process_file
    rw [hfind]
    simp only [hz]
    rfl
  refine ⟨h1, ?_⟩
  intro path config tr out hscan b hb heq
  rcases scan_ok_inv hscan with ⟨raw, _, _, hcase⟩
  rcases hcase with ⟨_, hout⟩ | ⟨q, pattern, _, _, hout⟩
  · subst hout
    have hp := (scanCore_blocks env path config raw none b hb).2
    rw [heq, h1 config.numbers] at hp
    cases hp
  · subst hout
    have hp := (scanCore_blocks env path config raw (some pattern) b hb).2
    rw [heq, h1 config.numbers] at hp
    cases hp

/-- C8 witness: the probe of `bin.dat` (bytes `[0, 1]`) holds a zero byte. -/
theorem binary_file_never_output_witness :
    findFile envP ["bin.dat"] = some fileBin ∧
    ((["bin.dat"] : FsPath) ∈ get_walk_files envP ".") ∧
    (∀ n : Bool, process_file envP ["bin.dat"] n = none) :=
  ⟨by decide, by decide,
    (binary_file_never_output envP ["bin.dat"] fileBin (by decide) (by decide)).1⟩

/-- C9: in git-diff mode, a spawn failure or a non-zero git exit status each
abort the whole scan with the corresponding fatal error; on success, every
path kept by `get_git_files` currently exists as a regular file and comes
from the query's stdout lines (paths failing the check are silently
dropped). -/
theorem git_failure_fatal_and_paths_filtered (env : Env) (path : String)
    (config : Args) (hdiff : config.diff = true) :
    (env.git = GitOutcome.execError →
      scan env path config = ([Ev.discover], Except.error ScanError.gitExec)) ∧
    (∀ stdout, env.git = GitOutcome.ran false stdout →
      scan env path config = ([Ev.discover], Except.error ScanError.gitFailed)) ∧
    (∀ stdout raw, env.git = GitOutcome.ran true stdout →
      get_git_files env path = Except.ok raw →
      (∀ q ∈ raw, existsIsFile env q = true) ∧
      raw ⊆ (rustLines stdout).map pathOfString) := by
  refine ⟨?_, ?_, ?_⟩
  · intro hgit
    apply scan_eq_of_raw_error
    simp [hdiff, get_git_files, hgit]
  · intro stdout hgit
    apply scan_eq_of_raw_error
    simp [hdiff, get_git_files, hgit]
  · intro stdout raw hgit hraw
    unfold get_git_files at hraw
    rw [hgit] at hraw
    simp only [if_pos rfl] at hraw
    injection hraw with hlist
    constructor
    · intro q hq
      rw [← hlist] at hq
      exact (List.mem_filter.mp hq).2
    · intro q hq
      rw [← hlist] at hq
      exact (List.mem_filter.mp hq).1

/-- C9 witness: git reports `a.txt` (on disk) and `missing.txt` (absent);
only the former is kept. -/
theorem git_failure_fatal_and_paths_filtered_witness :
    cfgDiff.diff = true ∧
    envW.git = GitOutcome.ran true "a.txt\nmissing.txt\n" ∧
    get_git_files envW "." = Except.ok [["a.txt"]] ∧
    (∀ q ∈ [(["a.txt"] : FsPath)], existsIsFile envW q = true) ∧
    [(["a.txt"] : FsPath)] ⊆ (rustLines "a.txt\nmissing.txt\n").map pathOfString :=
  ⟨rfl, rfl, rfl,
    ((git_failure_fatal_and_paths_filtered envW "." cfgDiff rfl).2.2
      "a.txt\nmissing.txt\n" [["a.txt"]] rfl rfl).1,
    ((git_failure_fatal_and_paths_filtered envW "." cfgDiff rfl).2.2
      "a.txt\nmissing.txt\n" [["a.txt"]] rfl rfl).2⟩

/-- C10: git-diff discovery ignores the scan root: `get_git_files` never
reads its `_path` parameter — the `git diff --name-only HEAD` command line
names no path and runs against the process working directory — so any two
roots give the same discovery result. -/
theorem git_discovery_root_independent (env : Env) (p₁ p₂ : String) :
    get_git_files env p₁ = get_git_files env p₂ := rfl

end Gimtex
